import Mathlib

set_option maxHeartbeats 1000000

/-
Shallow embedding of the report-generator core engine
(src/src/colifer/reportextenders/done_aggregation.py):
the Week Extractor (_extract_week_done_lines), the Done-Line Parser
(_week_done_lines_to_dict) and the Report Aggregator (_aggregate_report).
Python strings are Lean Strings; Python dicts (which preserve insertion
order) are insertion-ordered lists of DoneAction keyed by the name field;
Python code that can raise (list.index, int(), list subscripts) is modelled
in the Except monad.
-/

/-! ### Models of the Python string primitives used by the engine -/

/-- Characters stripped by Python str.strip and str.lstrip with no argument. -/
def pyIsSpace (c : Char) : Bool :=
  decide (c = ' ') || decide (c = '\t') || decide (c = '\n') || decide (c = '\r') ||
    decide (c = '\x0B') || decide (c = '\x0C')

/-- Drop trailing characters satisfying p. -/
def dropTrailing (p : Char → Bool) (cs : List Char) : List Char :=
  (cs.reverse.dropWhile p).reverse

/-- Python str.strip(): remove leading and trailing whitespace. -/
def pyStrip (s : String) : String :=
  ⟨dropTrailing pyIsSpace (s.data.dropWhile pyIsSpace)⟩

/-- Python str.lstrip(): remove leading whitespace. -/
def pyLstrip (s : String) : String :=
  ⟨s.data.dropWhile pyIsSpace⟩

/-- Python str.lstrip("- "): remove leading characters belonging to the set "- ". -/
def lstripDashSpace (s : String) : String :=
  ⟨s.data.dropWhile (fun c => decide (c = '-') || decide (c = ' '))⟩

/-- Python len(line) - len(line.lstrip()): the leading-whitespace width. -/
def indentWidth (s : String) : Nat :=
  s.length - (pyLstrip s).length

/-- Python slice line[n:]. -/
def strDrop (s : String) (n : Nat) : String :=
  ⟨s.data.drop n⟩

/-- Boolean prefix test on character lists (pattern first). -/
def listStarts : List Char → List Char → Bool
  | [], _ => true
  | _ :: _, [] => false
  | a :: as, b :: bs => decide (a = b) && listStarts as bs

/-- Python s.startswith(pat). -/
def strStarts (s pat : String) : Bool :=
  listStarts pat.data s.data

/-- Boolean substring test: does the needle occur inside the haystack list. -/
def listHasSub (needle : List Char) : List Char → Bool
  | [] => needle.isEmpty
  | c :: rest => listStarts needle (c :: rest) || listHasSub needle rest

/-- Python substring membership x in y. -/
def strIn (x y : String) : Bool :=
  listHasSub x.data y.data

/-- Python membership n in xs for string collections (sets / dict key views). -/
def memB (n : String) : List String → Bool
  | [] => false
  | x :: xs => decide (x = n) || memB n xs

/-- ASCII decimal digit, the characters matched by the regex class \d here. -/
def isDigitChar (c : Char) : Bool :=
  decide ('0' ≤ c) && decide (c ≤ '9')

/-- Characters matched by the regex class \w (ASCII letters, digits, underscore). -/
def isWordChar (c : Char) : Bool :=
  c.isAlpha || isDigitChar c || decide (c = '_')

/-- Model of ENTRY_NAME_REGEX.match(s).group(1) for the anchored pattern
"- \*\*([^*]+)\*\*.*": the text between the first pair of bold markers,
or none when the pattern does not match at the start of s. -/
def entryNameMatch (s : String) : Option String :=
  let cs := s.data
  if listStarts ['-', ' ', '*', '*'] cs then
    let rest := cs.drop 4
    let g := rest.takeWhile (fun c => decide (c ≠ '*'))
    if g.isEmpty then none
    else if listStarts ['*', '*'] (rest.drop g.length) then some ⟨g⟩
    else none
  else none

/-- Model of DAY_DONE_REGEX.match(s).group(3) for the anchored pattern
"#### (\d+)/(\d+) (\w+)": the weekday word of a day header, or none. -/
def dayDoneMatch (s : String) : Option String :=
  let cs := s.data
  if listStarts ['#', '#', '#', '#', ' '] cs then
    let r1 := cs.drop 5
    let d1 := r1.takeWhile isDigitChar
    if d1.isEmpty then none
    else
      match r1.drop d1.length with
      | '/' :: r2 =>
        let d2 := r2.takeWhile isDigitChar
        if d2.isEmpty then none
        else
          match r2.drop d2.length with
          | ' ' :: r3 =>
            let w := r3.takeWhile isWordChar
            if w.isEmpty then none else some ⟨w⟩
          | _ => none
      | _ => none
  else none

/-! ### Module constants -/

def TRACKED_TAG : String := " (Tracked)"

def CATEGORIES : List String := ["Work", "Colifer", "Gaming"]

def IGNORED_CATEGORIES : List String := ["Work"]

def WEEKDAYS : List String :=
  ["Monday", "Tuesday", "Wednesday", "Thursday", "Friday", "Saturday", "Sunday"]

/-! ### Data model -/

/-- The DoneAction record (a SimpleNamespace in the source). -/
structure DoneAction where
  identation_width : Nat
  name : String
  category : String
  weekday_nums : String
  notes : List String
deriving DecidableEq, Repr

/-- Ordered-dict lookup by the name key (Python d[n] / n in d). -/
def dictFind : List DoneAction → String → Option DoneAction
  | [], _ => none
  | a :: rest, n => if a.name = n then some a else dictFind rest n

/-- Python key membership n in d. -/
def dictContains (d : List DoneAction) (n : String) : Bool :=
  (dictFind d n).isSome

/-- In-place mutation of the entry stored under key n (keys are unchanged). -/
def dictUpdate (d : List DoneAction) (n : String) (a' : DoneAction) : List DoneAction :=
  d.map (fun a => if a.name = n then a' else a)

/-- Python del d[n]. -/
def dictDelete (d : List DoneAction) (n : String) : List DoneAction :=
  d.filter (fun a => decide (a.name ≠ n))

/-- Python list.index restricted to its successful outcome: first index of x, or none
(the source lets the ValueError escape; the none case is turned into an error below). -/
def listIndex (x : String) : List String → Option Nat
  | [] => none
  | y :: ys => if y = x then some 0 else (listIndex x ys).map (· + 1)

/-! ### Done-Line Parser (_week_done_lines_to_dict) -/

/-- The mutable scanning state of the parser loop.  weekday_num holds the string
rendering of the current weekday index, "" before any day header is seen
(in Python the variable holds "" first and an int afterwards, and is only
ever used through str()/f-string interpolation). -/
structure ParseState where
  dict : List DoneAction
  active : Option DoneAction
  last_category : String
  weekday_num : String
deriving DecidableEq, Repr

/-- week_done_line.lstrip("- ").strip() from the parser loop. -/
def doneStripped (line : String) : String :=
  pyStrip (lstripDashSpace line)

/-- One iteration of the parser loop.  The active action aliases its dict entry in
Python; here every mutation of the active action is written through to the dict. -/
def doneLineStep (st : ParseState) (line : String) : Except String ParseState :=
  let stripped := doneStripped line
  if stripped = "" then .ok st
  else
    match dayDoneMatch line with
    | some weekday =>
      match listIndex weekday WEEKDAYS with
      | some idx =>
        .ok { st with weekday_num := toString idx, last_category := "", active := none }
      | none => .error "ValueError: substring not found"
    | none =>
      let w := indentWidth line
      if memB stripped CATEGORIES then
        .ok { st with active := none, last_category := stripped }
      else
        let st1 := if w = 0 then { st with last_category := "" } else st
        if w = 0 then
          match dictFind st1.dict stripped with
          | none =>
            let a : DoneAction :=
              { identation_width := w, name := stripped, category := st1.last_category,
                weekday_nums := st1.weekday_num, notes := [] }
            .ok { st1 with dict := st1.dict ++ [a], active := some a }
          | some a =>
            let a' :=
              if strIn st1.weekday_num a.weekday_nums then a
              else { a with weekday_nums := a.weekday_nums ++ ", " ++ st1.weekday_num }
            .ok { st1 with dict := dictUpdate st1.dict stripped a', active := some a' }
        else
          match st1.active with
          | some ak =>
            let shifted := strDrop line ak.identation_width
            let ak' := { ak with notes := ak.notes ++ [shifted] }
            .ok { st1 with dict := dictUpdate st1.dict ak.name ak', active := some ak' }
          | none => .ok st1

/-- The parser loop with Python exception propagation. -/
def foldDoneLines : ParseState → List String → Except String ParseState
  | st, [] => .ok st
  | st, line :: rest =>
    match doneLineStep st line with
    | .ok st' => foldDoneLines st' rest
    | .error e => .error e

/-- _week_done_lines_to_dict. -/
def week_done_lines_to_dict (week_done_lines : List String) :
    Except String (List DoneAction) :=
  match foldDoneLines
      { dict := [], active := none, last_category := "", weekday_num := "" }
      week_done_lines with
  | .ok st => .ok st.dict
  | .error e => .error e

/-! ### Week Extractor (_extract_week_done_lines) -/

def WEEK_SEPARATOR : String := "### Week "

/-- Python format specifier {n:02d} for a natural number. -/
def format02d (n : Nat) : String :=
  if n < 10 then "0" ++ toString n else toString n

/-- The extractor loop: started tracks target_week_started. -/
def extractWeekAux (target : String) : List String → Bool → List String
  | [], _ => []
  | line :: rest, started =>
    let ls := pyStrip line
    if started then
      if strStarts ls WEEK_SEPARATOR then []
      else line :: extractWeekAux target rest true
    else
      extractWeekAux target rest (decide (ls = target))

/-- _extract_week_done_lines. -/
def extract_week_done_lines (done_lines : List String) (week_number : Nat) : List String :=
  extractWeekAux (WEEK_SEPARATOR ++ format02d week_number) done_lines false

/-! ### Report Aggregator (_aggregate_report) -/

/-- The injection-pass state: the accumulated output text, the working copy of the
action mapping, and the used_action_names set (as an insertion-ordered list). -/
structure AggState where
  ext : String
  copy : List DoneAction
  used : List String
deriving DecidableEq, Repr

/-- Python " " * w if w else "". -/
def indentSpaces (w : Nat) : String :=
  if w ≠ 0 then ⟨List.replicate w ' '⟩ else ""

/-- The inner notes loop of the injection pass. -/
def appendNotes (e base : String) : List String → String
  | [] => e
  | note :: rest => appendNotes (e ++ (base ++ note ++ "\n")) base rest

/-- One iteration of the injection pass over the report lines. -/
def aggregateLine (st : AggState) (report_line : String) : AggState :=
  let st1 : AggState := { st with ext := st.ext ++ (report_line ++ "\n") }
  if pyStrip report_line = "" then st1
  else
    match entryNameMatch (pyStrip report_line) with
    | none => st1
    | some action_name =>
      let action_name_identation := indentWidth report_line
      if memB action_name st1.used then st1
      else
        match dictFind st1.copy action_name with
        | none => st1
        | some action =>
          if memB action.category IGNORED_CATEGORIES then
            { st1 with used := st1.used ++ [action_name] }
          else
            { st1 with
                used := st1.used ++ [action_name],
                ext := appendNotes st1.ext (indentSpaces action_name_identation) action.notes,
                copy := dictDelete st1.copy action.name }

/-- The whole injection pass. -/
def injectionPass (report_lines : List String) (dict : List DoneAction) : AggState :=
  report_lines.foldl aggregateLine { ext := "", copy := dict, used := [] }

/-- Python str.split(", ") on the character list. -/
def splitCommaSpace : List Char → List (List Char)
  | [] => [[]]
  | ',' :: ' ' :: rest => [] :: splitCommaSpace rest
  | c :: rest =>
    match splitCommaSpace rest with
    | [] => [[c]]
    | p :: ps => (c :: p) :: ps

/-- Python s.split(", "). -/
def pySplitCommaSpace (s : String) : List String :=
  (splitCommaSpace s.data).map (fun l => ⟨l⟩)

/-- Python ", ".join(xs). -/
def joinCommaSpace : List String → String
  | [] => ""
  | [x] => x
  | x :: xs => x ++ ", " ++ joinCommaSpace xs

/-- Python int(s) on strings (optional sign, decimal digits), as an Except. -/
def pyInt (s : String) : Except String Int :=
  let t := (pyStrip s).data
  let signDigits : Bool × List Char :=
    match t with
    | '-' :: rest => (true, rest)
    | '+' :: rest => (false, rest)
    | l => (false, l)
  let ds := signDigits.2
  if ds.isEmpty then .error "ValueError: invalid literal for int"
  else if ds.all isDigitChar then
    let n : Nat := ds.foldl (fun acc c => acc * 10 + (c.toNat - '0'.toNat)) 0
    .ok (if signDigits.1 then -(n : Int) else (n : Int))
  else .error "ValueError: invalid literal for int"

/-- Python list subscript xs[i] including negative indices, as an Except. -/
def pyListGet (l : List String) (i : Int) : Except String String :=
  if 0 ≤ i then
    match l.get? i.toNat with
    | some x => .ok x
    | none => .error "IndexError: list index out of range"
  else
    let j := (-i).toNat
    if j ≤ l.length then
      match l.get? (l.length - j) with
      | some x => .ok x
      | none => .error "IndexError: list index out of range"
    else .error "IndexError: list index out of range"

/-- The comprehension [WEEKDAYS[int(wn)] for wn in parts] with its possible
ValueError / IndexError. -/
def weekdayNamesOf : List String → Except String (List String)
  | [] => .ok []
  | wn :: rest =>
    match pyInt wn with
    | .error e => .error e
    | .ok i =>
      match pyListGet WEEKDAYS i with
      | .error e => .error e
      | .ok nm =>
        match weekdayNamesOf rest with
        | .error e => .error e
        | .ok nms => .ok (nm :: nms)

/-- The action_weekdays string of one overview iteration. -/
def overviewWeekdays (a : DoneAction) : Except String String :=
  if a.weekday_nums ≠ "" then
    match weekdayNamesOf (pySplitCommaSpace a.weekday_nums) with
    | .ok nms => .ok ("- " ++ joinCommaSpace nms ++ " ")
    | .error e => .error e
  else .ok ""

/-- The tracked_tag expression: TRACKED_TAG if action.name not in copy else "". -/
def overviewTrackedTag (copy : List DoneAction) (a : DoneAction) : String :=
  if dictContains copy a.name then "" else TRACKED_TAG

/-- The notes loop of the overview pass. -/
def notesBlock : List String → String
  | [] => ""
  | note :: rest => note ++ "\n" ++ notesBlock rest

/-- The text one overview iteration appends for one action. -/
def overviewEntry (copy : List DoneAction) (a : DoneAction) : Except String String :=
  match overviewWeekdays a with
  | .ok wd => .ok (wd ++ "- " ++ a.name ++ overviewTrackedTag copy a ++ "\n" ++ notesBlock a.notes)
  | .error e => .error e

/-- The sort key built for each action tuple. -/
def actionSortKey (a : DoneAction) : String :=
  (if a.weekday_nums ≠ "" then "- " ++ a.weekday_nums ++ " " else "") ++ ("- " ++ a.name ++ " ")

/-- Total order used by Python string comparison (code-point lexicographic). -/
def strLeB (a b : String) : Bool :=
  !(decide (b < a))

/-- Stable insertion keeping earlier equal-key elements first. -/
def insertByKey (x : DoneAction) : List DoneAction → List DoneAction
  | [] => [x]
  | y :: ys => if strLeB (actionSortKey y) (actionSortKey x) then y :: insertByKey x ys else x :: y :: ys

/-- Python sorted(action_tuples, key=first component): a stable ascending sort. -/
def sortActions (l : List DoneAction) : List DoneAction :=
  l.foldl (fun acc a => insertByKey a acc) []

/-- The overview loop over the sorted actions. -/
def overviewFold (copy : List DoneAction) : String → List DoneAction → Except String String
  | acc, [] => .ok acc
  | acc, a :: rest =>
    match overviewEntry copy a with
    | .ok e => overviewFold copy (acc ++ e) rest
    | .error err => .error err

/-- _aggregate_report. -/
def aggregate_report (report_lines : List String) (week_done_actions_dict : List DoneAction) :
    Except String String :=
  let st := injectionPass report_lines week_done_actions_dict
  match overviewFold st.copy "## Overview\n" (sortActions week_done_actions_dict) with
  | .ok overview_section => .ok (overview_section ++ "\n" ++ st.ext)
  | .error e => .error e

/-- The core-engine pipeline wired by main(): extract the week, parse it,
aggregate the report. -/
def runEngine (done_lines report_lines : List String) (week_number : Nat) :
    Except String String :=
  match week_done_lines_to_dict (extract_week_done_lines done_lines week_number) with
  | .ok d => aggregate_report report_lines d
  | .error e => .error e

/-- Success test for an Except outcome (did the Python code return normally). -/
def exceptOk {ε α : Type} : Except ε α → Bool
  | .ok _ => true
  | .error _ => false

/-- Split a text into its lines at newline characters. -/
def splitNl : List Char → List (List Char)
  | [] => [[]]
  | '\n' :: rest => [] :: splitNl rest
  | c :: rest =>
    match splitNl rest with
    | [] => [[c]]
    | p :: ps => (c :: p) :: ps

/-- The lines of an output text. -/
def linesOf (s : String) : List String :=
  (splitNl s.data).map (fun l => ⟨l⟩)

/-! ### Basic string lemmas -/

theorem str_empty_data : ("" : String).data = [] := rfl

theorem str_data_append (a b : String) : (a ++ b).data = a.data ++ b.data := by
  cases a; cases b; rfl

theorem str_append_assoc (a b c : String) : a ++ b ++ c = a ++ (b ++ c) := by
  apply String.ext
  simp [str_data_append, List.append_assoc]

theorem str_append_empty (a : String) : a ++ "" = a := by
  apply String.ext
  simp [str_data_append, str_empty_data]

theorem listStarts_self_append (p q : List Char) : listStarts p (p ++ q) = true := by
  induction p with
  | nil => rfl
  | cons c cs ih => simp [listStarts, ih]

theorem strStarts_sep_append (x : String) :
    strStarts (WEEK_SEPARATOR ++ x) WEEK_SEPARATOR = true := by
  unfold strStarts
  rw [str_data_append]
  exact listStarts_self_append _ _

/-! ### Week Extractor: spec-side description and proofs (C7, C4) -/

/-- The target header text for week n. -/
def specWeekTarget (n : Nat) : String := WEEK_SEPARATOR ++ format02d n

/-- Modelled from the spec wording for claim C7 (refinement target): the contiguous
sub-sequence strictly between the first line whose stripped text equals the target
header and the next week header or end of input; empty when no header matches. -/
def specExtractWeek (lines : List String) (n : Nat) : List String :=
  match lines.dropWhile (fun l => decide (pyStrip l ≠ specWeekTarget n)) with
  | [] => []
  | _ :: rest => rest.takeWhile (fun l => !(strStarts (pyStrip l) WEEK_SEPARATOR))

theorem extractAux_started (lines : List String) (target : String) :
    extractWeekAux target lines true
      = lines.takeWhile (fun l => !(strStarts (pyStrip l) WEEK_SEPARATOR)) := by
  induction lines with
  | nil => rfl
  | cons l rest ih =>
    by_cases h : strStarts (pyStrip l) WEEK_SEPARATOR
    · simp [extractWeekAux, List.takeWhile_cons, h]
    · simp [extractWeekAux, List.takeWhile_cons, h, ih]

theorem extractAux_scan (lines : List String) (target : String) :
    extractWeekAux target lines false
      = (match lines.dropWhile (fun l => decide (pyStrip l ≠ target)) with
         | [] => []
         | _ :: rest => rest.takeWhile (fun l => !(strStarts (pyStrip l) WEEK_SEPARATOR))) := by
  induction lines with
  | nil => rfl
  | cons l rest ih =>
    by_cases h : pyStrip l = target
    · simp [extractWeekAux, List.dropWhile_cons, h, extractAux_started]
    · simp [extractWeekAux, List.dropWhile_cons, h, ih]

theorem extractAux_no_target (lines : List String) (target : String)
    (h : ∀ l ∈ lines, pyStrip l ≠ target) :
    extractWeekAux target lines false = [] := by
  induction lines with
  | nil => rfl
  | cons l rest ih =>
    have hl : ¬ (pyStrip l = target) := h l (List.mem_cons_self l rest)
    simp [extractWeekAux, hl]
    exact ih (fun x hx => h x (List.mem_cons_of_mem l hx))

theorem mem_takeWhile_pred {α : Type} {p : α → Bool} :
    ∀ {l : List α} {a : α}, a ∈ l.takeWhile p → p a = true := by
  intro l
  induction l with
  | nil => intro a h; simp [List.takeWhile] at h
  | cons x xs ih =>
    intro a h
    rw [List.takeWhile_cons] at h
    by_cases hx : p x
    · simp [hx] at h
      rcases h with h | h
      · rw [h]; exact hx
      · exact ih h
    · simp [hx] at h

theorem extract_member_not_target (lines : List String) (n : Nat) :
    ∀ l ∈ extract_week_done_lines lines n, pyStrip l ≠ specWeekTarget n := by
  intro l hl heq
  have hspec := extractAux_scan lines (specWeekTarget n)
  have hform : extract_week_done_lines lines n = extractWeekAux (specWeekTarget n) lines false := rfl
  rw [hform, hspec] at hl
  revert hl
  cases lines.dropWhile (fun l => decide (pyStrip l ≠ specWeekTarget n)) with
  | nil => intro hl; simp at hl
  | cons x rest =>
    intro hl
    have hpred := mem_takeWhile_pred hl
    rw [heq] at hpred
    unfold specWeekTarget at hpred
    rw [strStarts_sep_append] at hpred
    simp at hpred

/-- C7: the Week Extractor returns exactly the contiguous sub-sequence of lines
strictly between the first line whose stripped text equals "### Week NN"
(two-digit zero-padded) and the next "### Week " header or end of input, with
both header lines and everything before the first matching header excluded, and
the empty sequence when no header matches (specExtractWeek is that description
written from the spec). -/
theorem C7_week_extractor_refines_spec (lines : List String) (n : Nat) :
    extract_week_done_lines lines n = specExtractWeek lines n :=
  extractAux_scan lines (specWeekTarget n)

/-- C4 counterexample: extraction is not idempotent; re-extracting week 1 from
the extractor's own output loses the body because the output no longer carries
the week header. -/
theorem C4_counterexample :
    extract_week_done_lines (extract_week_done_lines ["### Week 01", "a"] 1) 1
      ≠ extract_week_done_lines ["### Week 01", "a"] 1 := by decide

/-- C4 amended: applying the Week Extractor to its own output always yields the
empty sequence (the output contains no week header line), so extraction is
idempotent exactly when the first extraction is already empty. -/
theorem C4_amended (lines : List String) (n : Nat) :
    extract_week_done_lines (extract_week_done_lines lines n) n = [] ∧
    (extract_week_done_lines (extract_week_done_lines lines n) n
        = extract_week_done_lines lines n
      ↔ extract_week_done_lines lines n = []) := by
  have hmain : extract_week_done_lines (extract_week_done_lines lines n) n = [] :=
    extractAux_no_target _ _ (extract_member_not_target lines n)
  refine ⟨hmain, ?_, ?_⟩
  · intro h; rw [hmain] at h; exact h.symm
  · intro h; rw [h]; exact rfl

/-! ### Error propagation (C2) -/

/-- C2 counterexample: a day header naming the unknown weekday "Funday" makes the
Done-Line Parser raise (WEEKDAYS.index raises ValueError), so the core engine does
not complete for this data-shape anomaly. -/
theorem C2_counterexample :
    exceptOk (runEngine ["### Week 01", "#### 01/01 Funday"] [] 1) = false := rfl

/-- C2 amended: the engine never raises when the requested week has no matching
header (the extraction is empty and everything degrades to no injection), but a
day header with an unknown weekday name, or an action line first seen before any
day header and repeated after one, does raise an error (see C2_counterexample). -/
theorem C2_amended (done_lines report_lines : List String) (week_number : Nat)
    (h : extract_week_done_lines done_lines week_number = []) :
    exceptOk (runEngine done_lines report_lines week_number) = true := by
  unfold runEngine
  rw [h]
  exact rfl

/-- Witness for C2_amended at a concrete input without the requested week. -/
theorem C2_amended_witness :
    exceptOk (runEngine ["no header here"] ["- some report line"] 1) = true :=
  C2_amended ["no header here"] ["- some report line"] 1 rfl

/-! ### The end-to-end example (C3) -/

/-- The Done-log of the end-to-end example: week 01 with day 01/01 Monday,
top-level line "- Fix bug" and nested note "    - took 2 hours". -/
def exampleDoneLines : List String :=
  ["### Week 01", "#### 01/01 Monday", "- Fix bug", "    - took 2 hours"]

/-- The report of the end-to-end example. -/
def exampleReportLines : List String :=
  ["- **Fix bug**  *(01:58)* <!--01/01 Mon-->"]

/-- The text actually produced by the engine on the example (computed from the
code, not from the spec). -/
def exampleActualOutput : String :=
  "## Overview\n- Monday - Fix bug (Tracked)\n    - took 2 hours\n\n- **Fix bug**  *(01:58)* <!--01/01 Mon-->\n    - took 2 hours\n"

/-- C3 counterexample: the engine run on the example produces no Overview line
that is exactly "- Monday - Fix bug"; the overview entry carries the
" (Tracked)" tag (the body part of the claim does hold, see C3_amended). -/
theorem C3_counterexample :
    runEngine exampleDoneLines exampleReportLines 1 = .ok exampleActualOutput ∧
    memB "- Monday - Fix bug" (linesOf exampleActualOutput) = false := by
  exact ⟨rfl, rfl⟩

/-- C3 amended: on the example inputs the aggregated output is exactly the report
line immediately followed by "    - took 2 hours", preceded by an Overview whose
entry is "- Monday - Fix bug (Tracked)" followed by "    - took 2 hours" (the
claim's expected overview entry amended with the " (Tracked)" tag the code
attaches to matched actions). -/
theorem C3_amended :
    runEngine exampleDoneLines exampleReportLines 1 = .ok exampleActualOutput ∧
    linesOf exampleActualOutput =
      ["## Overview", "- Monday - Fix bug (Tracked)", "    - took 2 hours", "",
       "- **Fix bug**  *(01:58)* <!--01/01 Mon-->", "    - took 2 hours", ""] := by
  exact ⟨rfl, rfl⟩

/-! ### Injection-pass branch lemmas -/

/-- The block of text the notes loop appends (notes in stored order, each
prefixed by the base indentation). -/
def indentedBlock (base : String) : List String → String
  | [] => ""
  | note :: rest => (base ++ note ++ "\n") ++ indentedBlock base rest

theorem appendNotes_eq (base : String) (notes : List String) :
    ∀ e, appendNotes e base notes = e ++ indentedBlock base notes := by
  induction notes with
  | nil => intro e; simp [appendNotes, indentedBlock, str_append_empty]
  | cons note rest ih =>
    intro e
    simp [appendNotes, indentedBlock, ih, str_append_assoc]

theorem entryNameMatch_empty : entryNameMatch "" = none := rfl

theorem aggregateLine_blank (st : AggState) (line : String) (h : pyStrip line = "") :
    aggregateLine st line = { st with ext := st.ext ++ (line ++ "\n") } := by
  simp [aggregateLine, h]

theorem aggregateLine_nomatch (st : AggState) (line : String)
    (h : entryNameMatch (pyStrip line) = none) :
    aggregateLine st line = { st with ext := st.ext ++ (line ++ "\n") } := by
  by_cases hb : pyStrip line = ""
  · simp [aggregateLine, hb]
  · simp [aggregateLine, hb, h]

theorem pyStrip_ne_empty_of_match (line n : String)
    (hm : entryNameMatch (pyStrip line) = some n) : ¬ (pyStrip line = "") := by
  intro h
  rw [h, entryNameMatch_empty] at hm
  exact Option.noConfusion hm

theorem aggregateLine_dup (st : AggState) (line n : String)
    (hm : entryNameMatch (pyStrip line) = some n)
    (hu : memB n st.used = true) :
    aggregateLine st line = { st with ext := st.ext ++ (line ++ "\n") } := by
  have hb := pyStrip_ne_empty_of_match line n hm
  simp [aggregateLine, hb, hm, hu]

theorem aggregateLine_unknown (st : AggState) (line n : String)
    (hm : entryNameMatch (pyStrip line) = some n)
    (hu : memB n st.used = false)
    (hf : dictFind st.copy n = none) :
    aggregateLine st line = { st with ext := st.ext ++ (line ++ "\n") } := by
  have hb := pyStrip_ne_empty_of_match line n hm
  simp [aggregateLine, hb, hm, hu, hf]

theorem aggregateLine_ignored (st : AggState) (line n : String) (a : DoneAction)
    (hm : entryNameMatch (pyStrip line) = some n)
    (hu : memB n st.used = false)
    (hf : dictFind st.copy n = some a)
    (hc : memB a.category IGNORED_CATEGORIES = true) :
    aggregateLine st line
      = { st with ext := st.ext ++ (line ++ "\n"), used := st.used ++ [n] } := by
  have hb := pyStrip_ne_empty_of_match line n hm
  simp [aggregateLine, hb, hm, hu, hf, hc]

theorem aggregateLine_consume (st : AggState) (line n : String) (a : DoneAction)
    (hm : entryNameMatch (pyStrip line) = some n)
    (hu : memB n st.used = false)
    (hf : dictFind st.copy n = some a)
    (hc : memB a.category IGNORED_CATEGORIES = false) :
    aggregateLine st line
      = { ext := st.ext ++ (line ++ "\n")
              ++ indentedBlock (indentSpaces (indentWidth line)) a.notes,
          copy := dictDelete st.copy a.name,
          used := st.used ++ [n] } := by
  have hb := pyStrip_ne_empty_of_match line n hm
  simp [aggregateLine, hb, hm, hu, hf, hc, appendNotes_eq]

theorem aggregateLine_ext_mono (st : AggState) (line : String) :
    ∃ s, (aggregateLine st line).ext = st.ext ++ s := by
  by_cases hb : pyStrip line = ""
  · exact ⟨line ++ "\n", by rw [aggregateLine_blank st line hb]⟩
  · cases hm : entryNameMatch (pyStrip line) with
    | none => exact ⟨line ++ "\n", by rw [aggregateLine_nomatch st line hm]⟩
    | some n =>
      cases hu : memB n st.used with
      | true => exact ⟨line ++ "\n", by rw [aggregateLine_dup st line n hm hu]⟩
      | false =>
        cases hf : dictFind st.copy n with
        | none => exact ⟨line ++ "\n", by rw [aggregateLine_unknown st line n hm hu hf]⟩
        | some a =>
          cases hc : memB a.category IGNORED_CATEGORIES with
          | true => exact ⟨line ++ "\n", by rw [aggregateLine_ignored st line n a hm hu hf hc]⟩
          | false =>
            refine ⟨line ++ "\n" ++ indentedBlock (indentSpaces (indentWidth line)) a.notes, ?_⟩
            rw [aggregateLine_consume st line n a hm hu hf hc]
            simp [str_append_assoc]

theorem foldl_aggregate_ext_mono (lines : List String) :
    ∀ st : AggState, ∃ s, (lines.foldl aggregateLine st).ext = st.ext ++ s := by
  induction lines with
  | nil => intro st; exact ⟨"", (str_append_empty st.ext).symm⟩
  | cons l rest ih =>
    intro st
    obtain ⟨s1, h1⟩ := aggregateLine_ext_mono st l
    obtain ⟨s2, h2⟩ := ih (aggregateLine st l)
    exact ⟨s1 ++ s2, by rw [List.foldl_cons, h2, h1, str_append_assoc]⟩

theorem aggregateLine_copy_sublist (st : AggState) (line : String) :
    (aggregateLine st line).copy.Sublist st.copy := by
  by_cases hb : pyStrip line = ""
  · rw [aggregateLine_blank st line hb]
  · cases hm : entryNameMatch (pyStrip line) with
    | none => rw [aggregateLine_nomatch st line hm]
    | some n =>
      cases hu : memB n st.used with
      | true => rw [aggregateLine_dup st line n hm hu]
      | false =>
        cases hf : dictFind st.copy n with
        | none => rw [aggregateLine_unknown st line n hm hu hf]
        | some a =>
          cases hc : memB a.category IGNORED_CATEGORIES with
          | true => rw [aggregateLine_ignored st line n a hm hu hf hc]
          | false =>
            rw [aggregateLine_consume st line n a hm hu hf hc]
            exact List.filter_sublist _

theorem foldl_aggregate_copy_sublist (lines : List String) :
    ∀ st : AggState, ((lines.foldl aggregateLine st).copy).Sublist st.copy := by
  induction lines with
  | nil => intro st; exact List.Sublist.refl _
  | cons l rest ih =>
    intro st
    exact (ih (aggregateLine st l)).trans (aggregateLine_copy_sublist st l)

/-- C10: _aggregate_report never mutates the action mapping it is given: every
deletion of a consumed action happens on the working copy only, actions
themselves are never rewritten, and the Overview pass is computed from the
original mapping.  In this pure embedding the mapping given to the aggregator is
by construction the one the Overview pass reads; the content of the claim is
the frame property of the injection pass, stated here as: the working copy left
by the injection pass is a deletion-only sub-sequence of the original mapping
whose surviving entries are, field for field, the original Action records. -/
theorem C10_injection_frame (report_lines : List String) (dict : List DoneAction) :
    ((injectionPass report_lines dict).copy).Sublist dict :=
  foldl_aggregate_copy_sublist report_lines { ext := "", copy := dict, used := [] }

/-! ### Duplicate matches (C9) -/

theorem memB_append (n : String) (u v : List String) :
    memB n (u ++ v) = (memB n u || memB n v) := by
  induction u with
  | nil => simp [memB]
  | cons x xs ih => simp [memB, ih, Bool.or_assoc]

theorem aggregateLine_used_mono (st : AggState) (line n : String)
    (h : memB n st.used = true) :
    memB n (aggregateLine st line).used = true := by
  by_cases hb : pyStrip line = ""
  · rw [aggregateLine_blank st line hb]; exact h
  · cases hm : entryNameMatch (pyStrip line) with
    | none => rw [aggregateLine_nomatch st line hm]; exact h
    | some m =>
      cases hu : memB m st.used with
      | true => rw [aggregateLine_dup st line m hm hu]; exact h
      | false =>
        cases hf : dictFind st.copy m with
        | none => rw [aggregateLine_unknown st line m hm hu hf]; exact h
        | some a =>
          cases hc : memB a.category IGNORED_CATEGORIES with
          | true =>
            rw [aggregateLine_ignored st line m a hm hu hf hc]
            show memB n (st.used ++ [m]) = true
            rw [memB_append, h]; rfl
          | false =>
            rw [aggregateLine_consume st line m a hm hu hf hc]
            show memB n (st.used ++ [m]) = true
            rw [memB_append, h]; rfl

theorem foldl_aggregate_used_mono (lines : List String) :
    ∀ (st : AggState) (n : String), memB n st.used = true →
      memB n ((lines.foldl aggregateLine st).used) = true := by
  induction lines with
  | nil => intro st n h; exact h
  | cons l rest ih =>
    intro st n h
    exact ih (aggregateLine st l) n (aggregateLine_used_mono st l n h)

/-- C9: a report line whose extracted bold name was already consumed earlier in
the pass is copied verbatim and triggers no further effect: the state is
unchanged except for the verbatim copy (no notes re-injected, nothing deleted,
nothing newly consumed), and the name stays consumed for the remainder of the
pass, so no later duplicate is injected either; processing continues without
error (the injection pass is a total function; the warning is a log line with
no effect on the produced text). -/
theorem C9_duplicate_not_reinjected (st : AggState) (line n : String)
    (hm : entryNameMatch (pyStrip line) = some n)
    (hu : memB n st.used = true) :
    aggregateLine st line = { st with ext := st.ext ++ (line ++ "\n") } ∧
    ∀ rest : List String,
      memB n ((rest.foldl aggregateLine (aggregateLine st line)).used) = true := by
  refine ⟨aggregateLine_dup st line n hm hu, ?_⟩
  intro rest
  exact foldl_aggregate_used_mono rest _ n (aggregateLine_used_mono st line n hu)

/-- State used by the C9 witness: the single action "A" already consumed. -/
def c9WitnessState : AggState :=
  { ext := "", copy := [{ identation_width := 0, name := "A", category := "",
                          weekday_nums := "", notes := ["    - note"] }], used := ["A"] }

/-- Witness for C9 at a concrete already-consumed action. -/
theorem C9_duplicate_not_reinjected_witness :
    aggregateLine c9WitnessState "- **A**"
      = { c9WitnessState with ext := c9WitnessState.ext ++ ("- **A**" ++ "\n") } ∧
    memB "A" ((["- **A**"].foldl aggregateLine
        (aggregateLine c9WitnessState "- **A**")).used) = true :=
  ⟨(C9_duplicate_not_reinjected c9WitnessState "- **A**" "A" rfl rfl).1,
   (C9_duplicate_not_reinjected c9WitnessState "- **A**" "A" rfl rfl).2 ["- **A**"]⟩

/-! ### Note injection for a fresh match (C6) -/

/-- C6: when a report line's bold-name extraction yields a name that is not yet
consumed and is present in the working copy with a category outside the ignored
set, the aggregator's output contains that report line immediately followed by
all of the action's notes, in stored (Done-log) order, each prefixed with as
many spaces as the report line's leading-whitespace width (and no prefix when
the line is unindented) — indentSpaces of indentWidth, exactly the
base_identation string of the source. -/
theorem C6_notes_injected_after_line (pre post : List String) (line : String)
    (dict : List DoneAction) (n : String) (a : DoneAction) (out : String)
    (hm : entryNameMatch (pyStrip line) = some n)
    (hu : memB n (injectionPass pre dict).used = false)
    (hf : dictFind (injectionPass pre dict).copy n = some a)
    (hc : memB a.category IGNORED_CATEGORIES = false)
    (hok : aggregate_report (pre ++ line :: post) dict = .ok out) :
    ∃ s t, out = s ++ (line ++ "\n"
        ++ indentedBlock (indentSpaces (indentWidth line)) a.notes) ++ t := by
  have hcons : injectionPass (pre ++ line :: post) dict
      = post.foldl aggregateLine (aggregateLine (injectionPass pre dict) line) := by
    unfold injectionPass
    rw [List.foldl_append, List.foldl_cons]
  have hstep := aggregateLine_consume (injectionPass pre dict) line n a hm hu hf hc
  obtain ⟨suf, hsuf⟩ := foldl_aggregate_ext_mono post (aggregateLine (injectionPass pre dict) line)
  have hext : (injectionPass (pre ++ line :: post) dict).ext
      = ((injectionPass pre dict).ext ++ (line ++ "\n")
            ++ indentedBlock (indentSpaces (indentWidth line)) a.notes) ++ suf := by
    rw [hcons, hsuf, hstep]
  simp only [aggregate_report] at hok
  split at hok
  case h_2 => exact Except.noConfusion hok
  case h_1 ov hov =>
    have hout : ov ++ "\n" ++ (injectionPass (pre ++ line :: post) dict).ext = out := by
      injection hok
    refine ⟨ov ++ "\n" ++ (injectionPass pre dict).ext, suf, ?_⟩
    rw [← hout, hext]
    simp [str_append_assoc]

/-- Witness for C6 at the single-line report matching the single stored action. -/
theorem C6_notes_injected_after_line_witness :
    ∃ s t,
      "## Overview\n- A (Tracked)\n    - n\n\n- **A**\n    - n\n"
        = s ++ ("- **A**" ++ "\n"
            ++ indentedBlock (indentSpaces (indentWidth "- **A**")) ["    - n"]) ++ t :=
  C6_notes_injected_after_line [] [] "- **A**"
    [{ identation_width := 0, name := "A", category := "", weekday_nums := "", notes := ["    - n"] }]
    "A"
    { identation_width := 0, name := "A", category := "", weekday_nums := "", notes := ["    - n"] }
    "## Overview\n- A (Tracked)\n    - n\n\n- **A**\n    - n\n"
    rfl rfl rfl rfl rfl

/-! ### Parser invariant: actions are created uncategorized at indentation 0 (C5) -/

/-- Invariant carried through the parser loop: every stored action (and the
active one, which aliases a stored one) has empty category and indentation 0. -/
def parseInv (st : ParseState) : Prop :=
  (∀ a ∈ st.dict, a.category = "" ∧ a.identation_width = 0) ∧
  (∀ a, st.active = some a → a.category = "" ∧ a.identation_width = 0)

theorem dictFind_mem : ∀ (d : List DoneAction) (n : String) (a : DoneAction),
    dictFind d n = some a → a ∈ d ∧ a.name = n := by
  intro d
  induction d with
  | nil => intro n a h; exact Option.noConfusion h
  | cons x rest ih =>
    intro n a h
    unfold dictFind at h
    by_cases hx : x.name = n
    · rw [if_pos hx] at h
      injection h with h
      subst h
      exact ⟨List.mem_cons_self x rest, hx⟩
    · rw [if_neg hx] at h
      obtain ⟨hm, hn⟩ := ih n a h
      exact ⟨List.mem_cons_of_mem x hm, hn⟩

theorem mem_dictUpdate (d : List DoneAction) (n : String) (a' b : DoneAction)
    (h : b ∈ dictUpdate d n a') : b ∈ d ∨ b = a' := by
  unfold dictUpdate at h
  rw [List.mem_map] at h
  obtain ⟨c, hc, heq⟩ := h
  by_cases hn : c.name = n
  · rw [if_pos hn] at heq
    right
    exact heq.symm
  · rw [if_neg hn] at heq
    left
    rw [← heq]
    exact hc

theorem doneLineStep_inv (st : ParseState) (line : String) (st' : ParseState)
    (hinv : parseInv st) (h : doneLineStep st line = .ok st') : parseInv st' := by
  simp only [doneLineStep] at h
  by_cases hb : doneStripped line = ""
  · simp [hb] at h
    subst h
    exact hinv
  · cases hd : dayDoneMatch line with
    | some wd =>
      cases hidx : listIndex wd WEEKDAYS with
      | some idx =>
        simp [hb, hd, hidx] at h
        subst h
        exact ⟨hinv.1, by intro a ha; exact Option.noConfusion ha⟩
      | none => simp [hb, hd, hidx] at h
    | none =>
      by_cases hcat : memB (doneStripped line) CATEGORIES = true
      · simp [hb, hd, hcat] at h
        subst h
        exact ⟨hinv.1, by intro a ha; exact Option.noConfusion ha⟩
      · rw [Bool.not_eq_true] at hcat
        by_cases hw : indentWidth line = 0
        · cases hfind : dictFind st.dict (doneStripped line) with
          | none =>
            simp [hb, hd, hcat, hw, hfind] at h
            subst h
            constructor
            · intro b hbm
              rw [List.mem_append] at hbm
              rcases hbm with hbm | hbm
              · exact hinv.1 b hbm
              · rw [List.mem_singleton] at hbm
                subst hbm
                exact ⟨rfl, rfl⟩
            · intro b hbm
              injection hbm with hbm
              subst hbm
              exact ⟨rfl, rfl⟩
          | some a =>
            have hprops := hinv.1 a (dictFind_mem st.dict (doneStripped line) a hfind).1
            simp [hb, hd, hcat, hw, hfind] at h
            by_cases hsub : strIn st.weekday_num a.weekday_nums = true
            · simp [hsub] at h
              subst h
              constructor
              · intro b hbm
                rcases mem_dictUpdate _ _ _ _ hbm with hbm | hbm
                · exact hinv.1 b hbm
                · subst hbm; exact hprops
              · intro b hbm
                injection hbm with hbm
                subst hbm
                exact hprops
            · rw [Bool.not_eq_true] at hsub
              simp [hsub] at h
              subst h
              constructor
              · intro b hbm
                rcases mem_dictUpdate _ _ _ _ hbm with hbm | hbm
                · exact hinv.1 b hbm
                · subst hbm; exact hprops
              · intro b hbm
                injection hbm with hbm
                subst hbm
                exact hprops
        · cases hact : st.active with
          | some ak =>
            have hprops := hinv.2 ak hact
            simp [hb, hd, hcat, hw, hact] at h
            subst h
            constructor
            · intro b hbm
              rcases mem_dictUpdate _ _ _ _ hbm with hbm | hbm
              · exact hinv.1 b hbm
              · subst hbm; exact hprops
            · intro b hbm
              injection hbm with hbm
              subst hbm
              exact hprops
          | none =>
            simp [hb, hd, hcat, hw, hact] at h
            subst h
            exact ⟨hinv.1, fun b hbm => hinv.2 b (hact ▸ hbm)⟩

theorem foldDoneLines_inv (lines : List String) :
    ∀ (st st' : ParseState), parseInv st → foldDoneLines st lines = .ok st' → parseInv st' := by
  induction lines with
  | nil =>
    intro st st' hinv h
    unfold foldDoneLines at h
    injection h with h
    subst h
    exact hinv
  | cons l rest ih =>
    intro st st' hinv h
    unfold foldDoneLines at h
    cases hstep : doneLineStep st l with
    | ok st1 =>
      rw [hstep] at h
      exact ih st1 st' (doneLineStep_inv st l st1 hinv hstep) h
    | error e =>
      rw [hstep] at h
      exact Except.noConfusion h

/-- C5: every Action produced by the Done-Line Parser has empty category and
identation_width 0 (the active category is cleared at indentation 0 before any
action is created, and actions are created only at indentation 0); consequently
its category is never in the ignored set, so for parser-produced mappings the
ignored-category check in the aggregator never suppresses note injection. -/
theorem C5_parser_actions_uncategorized (lines : List String) (d : List DoneAction)
    (a : DoneAction) (h : week_done_lines_to_dict lines = .ok d) (ha : a ∈ d) :
    a.category = "" ∧ a.identation_width = 0 ∧
      memB a.category IGNORED_CATEGORIES = false := by
  unfold week_done_lines_to_dict at h
  cases hfold : foldDoneLines
      { dict := [], active := none, last_category := "", weekday_num := "" } lines with
  | ok st =>
    rw [hfold] at h
    injection h with h
    have hinv := foldDoneLines_inv lines _ st
      ⟨by intro b hbm; simp at hbm, by intro b hbm; exact Option.noConfusion hbm⟩ hfold
    rw [← h] at ha
    obtain ⟨hc, hw⟩ := hinv.1 a ha
    exact ⟨hc, hw, by rw [hc]; rfl⟩
  | error e =>
    rw [hfold] at h
    exact Except.noConfusion h

/-- Witness for C5: the single action parsed from the line "- A". -/
theorem C5_parser_actions_uncategorized_witness :
    ({ identation_width := 0, name := "A", category := "", weekday_nums := "",
       notes := [] } : DoneAction).category = "" ∧
    ({ identation_width := 0, name := "A", category := "", weekday_nums := "",
       notes := [] } : DoneAction).identation_width = 0 ∧
    memB ({ identation_width := 0, name := "A", category := "", weekday_nums := "",
            notes := [] } : DoneAction).category IGNORED_CATEGORIES = false :=
  C5_parser_actions_uncategorized ["- A"]
    [{ identation_width := 0, name := "A", category := "", weekday_nums := "", notes := [] }]
    { identation_width := 0, name := "A", category := "", weekday_nums := "", notes := [] }
    rfl (List.mem_singleton.mpr rfl)

/-! ### Tracked-tag characterization (C1): dictionary lemmas -/

/-- A line of the report matches the action name n when its bold-name extraction
yields exactly n. -/
def lineMatches (l n : String) : Bool :=
  decide (entryNameMatch (pyStrip l) = some n)

/-- The ignored-category test on the mapping entry stored under n. -/
def catNotIgnored (dict : List DoneAction) (n : String) : Bool :=
  match dictFind dict n with
  | some a => !(memB a.category IGNORED_CATEGORIES)
  | none => false

/-- n is consumed by the injection pass: some report line matches it and the
mapping entry's category is not ignored. -/
def consumedPred (rl : List String) (dict : List DoneAction) (n : String) : Bool :=
  rl.any (fun l => lineMatches l n) && catNotIgnored dict n

/-- The mapping's name keys are pairwise distinct (always true of a Python dict). -/
def NodupNames (d : List DoneAction) : Prop :=
  (d.map DoneAction.name).Nodup

/-- An entry survives in the working copy while it has not been consumed with a
non-ignored category. -/
def injCond (used : List String) (a : DoneAction) : Bool :=
  !(memB a.name used && !(memB a.category IGNORED_CATEGORIES))

theorem memB_singleton (n x : String) : memB n [x] = decide (x = n) := by
  simp [memB]

theorem nodupNames_cons (x : DoneAction) (rest : List DoneAction)
    (h : NodupNames (x :: rest)) :
    (∀ a ∈ rest, a.name ≠ x.name) ∧ NodupNames rest := by
  unfold NodupNames at h ⊢
  rw [List.map_cons, List.nodup_cons] at h
  exact ⟨fun a ha hn => h.1 (hn ▸ List.mem_map_of_mem DoneAction.name ha), h.2⟩

theorem dictFind_none_of_no_name (d : List DoneAction) (n : String)
    (h : ∀ a ∈ d, a.name ≠ n) : dictFind d n = none := by
  induction d with
  | nil => rfl
  | cons x rest ih =>
    unfold dictFind
    rw [if_neg (h x (List.mem_cons_self x rest))]
    exact ih (fun a ha => h a (List.mem_cons_of_mem x ha))

theorem dictFind_unique (d : List DoneAction) (hnd : NodupNames d) (b : DoneAction)
    (hb : b ∈ d) : dictFind d b.name = some b := by
  induction d with
  | nil => simp at hb
  | cons x rest ih =>
    obtain ⟨hne, hrest⟩ := nodupNames_cons x rest hnd
    rcases List.mem_cons.mp hb with hb | hb
    · subst hb
      unfold dictFind
      rw [if_pos rfl]
    · unfold dictFind
      rw [if_neg (Ne.symm (hne b hb))]
      exact ih hrest hb

theorem dictFind_filter (d : List DoneAction) (p : DoneAction → Bool) (n : String)
    (hnd : NodupNames d) :
    dictFind (d.filter p) n
      = (match dictFind d n with
         | some a => if p a then some a else none
         | none => none) := by
  induction d with
  | nil => rfl
  | cons x rest ih =>
    obtain ⟨hne, hrest⟩ := nodupNames_cons x rest hnd
    rw [List.filter_cons]
    by_cases hx : x.name = n
    · by_cases hp : p x = true
      · simp [dictFind, hx, hp]
      · rw [Bool.not_eq_true] at hp
        have hnone : dictFind (rest.filter p) n = none := by
          apply dictFind_none_of_no_name
          intro a ha
          exact hx ▸ hne a (List.mem_of_mem_filter ha)
        simp [dictFind, hx, hp, hnone]
    · by_cases hp : p x = true
      · simp [dictFind, hx, hp, ih hrest]
      · rw [Bool.not_eq_true] at hp
        simp [dictFind, hx, hp, ih hrest]

theorem find_copy_some (dict : List DoneAction) (hnd : NodupNames dict)
    (used : List String) (n0 : String) (a0 : DoneAction)
    (hf : dictFind (dict.filter (injCond used)) n0 = some a0) :
    dictFind dict n0 = some a0 ∧ injCond used a0 = true := by
  rw [dictFind_filter dict _ n0 hnd] at hf
  cases hdf : dictFind dict n0 with
  | none => rw [hdf] at hf; exact Option.noConfusion hf
  | some a =>
    rw [hdf] at hf
    have hf2 : (if injCond used a = true then some a else none) = some a0 := hf
    by_cases hp : injCond used a = true
    · rw [if_pos hp] at hf2
      injection hf2 with hf2
      exact ⟨congrArg some hf2, hf2 ▸ hp⟩
    · rw [if_neg hp] at hf2
      exact Option.noConfusion hf2

theorem find_copy_none (dict : List DoneAction) (hnd : NodupNames dict)
    (used : List String) (n0 : String)
    (hu : memB n0 used = false)
    (hf : dictFind (dict.filter (injCond used)) n0 = none) :
    dictContains dict n0 = false := by
  rw [dictFind_filter dict _ n0 hnd] at hf
  cases hdf : dictFind dict n0 with
  | none => unfold dictContains; rw [hdf]; rfl
  | some a =>
    rw [hdf] at hf
    have hname := (dictFind_mem dict n0 a hdf).2
    have hic : injCond used a = true := by
      unfold injCond
      rw [hname, hu]
      rfl
    have hf2 : (if injCond used a = true then some a else none) = none := hf
    rw [if_pos hic] at hf2
    exact Option.noConfusion hf2

theorem injCond_append_ne (used : List String) (n0 : String) (b : DoneAction)
    (h : b.name ≠ n0) : injCond (used ++ [n0]) b = injCond used b := by
  unfold injCond
  rw [memB_append, memB_singleton, decide_eq_false (fun hh => h hh.symm), Bool.or_false]

theorem lineMatches_none (l : String) (h : entryNameMatch (pyStrip l) = none) :
    ∀ n, lineMatches l n = false := by
  intro n
  simp [lineMatches, h]

theorem lineMatches_some (l n0 : String) (h : entryNameMatch (pyStrip l) = some n0) :
    ∀ n, lineMatches l n = decide (n0 = n) := by
  intro n
  simp [lineMatches, h]

theorem injection_inv (dict : List DoneAction) (hnd : NodupNames dict) (rl : List String) :
    (∀ n, memB n (injectionPass rl dict).used
        = (rl.any (fun l => lineMatches l n) && dictContains dict n)) ∧
    (injectionPass rl dict).copy
      = dict.filter (injCond (injectionPass rl dict).used) := by
  induction rl using List.reverseRecOn with
  | nil =>
    constructor
    · intro n; rfl
    · show dict = dict.filter (injCond [])
      exact (List.filter_eq_self.mpr (fun a _ => rfl)).symm
  | append_singleton rl' l ih =>
    obtain ⟨ihu, ihc⟩ := ih
    have hupd : injectionPass (rl' ++ [l]) dict
        = aggregateLine (injectionPass rl' dict) l := by
      unfold injectionPass
      rw [List.foldl_append]
      rfl
    set st := injectionPass rl' dict with hst
    by_cases hb : pyStrip l = ""
    · have hM := lineMatches_none l (by rw [hb]; exact entryNameMatch_empty)
      rw [hupd, aggregateLine_blank st l hb]
      constructor
      · intro n
        show memB n st.used = _
        simp [List.any_append, hM, ihu n]
      · show st.copy = dict.filter (injCond st.used)
        exact ihc
    · cases hm : entryNameMatch (pyStrip l) with
      | none =>
        have hM := lineMatches_none l hm
        rw [hupd, aggregateLine_nomatch st l hm]
        constructor
        · intro n
          show memB n st.used = _
          simp [List.any_append, hM, ihu n]
        · show st.copy = dict.filter (injCond st.used)
          exact ihc
      | some n0 =>
        have hM := lineMatches_some l n0 hm
        cases hu : memB n0 st.used with
        | true =>
          rw [hupd, aggregateLine_dup st l n0 hm hu]
          constructor
          · intro n
            show memB n st.used = _
            by_cases hn : n0 = n
            · subst hn
              have h2 := (ihu n0).symm.trans hu
              rw [Bool.and_eq_true] at h2
              obtain ⟨ha1, ha2⟩ := h2
              simp [List.any_append, hM, hu, ha1, ha2]
            · simp [List.any_append, hM, hn, ihu n]
          · show st.copy = dict.filter (injCond st.used)
            exact ihc
        | false =>
          cases hf : dictFind st.copy n0 with
          | none =>
            rw [hupd, aggregateLine_unknown st l n0 hm hu hf]
            have hcont : dictContains dict n0 = false := by
              apply find_copy_none dict hnd st.used n0 hu
              rw [← ihc]
              exact hf
            constructor
            · intro n
              show memB n st.used = _
              by_cases hn : n0 = n
              · subst hn
                simp [List.any_append, hM, hu, hcont]
              · simp [List.any_append, hM, hn, ihu n]
            · show st.copy = dict.filter (injCond st.used)
              exact ihc
          | some a0 =>
            have hf' : dictFind (dict.filter (injCond st.used)) n0 = some a0 := by
              rw [← ihc]
              exact hf
            obtain ⟨hdf, hic⟩ := find_copy_some dict hnd st.used n0 a0 hf'
            have hname : a0.name = n0 := (dictFind_mem _ _ _ hdf).2
            have hcont : dictContains dict n0 = true := by
              unfold dictContains
              rw [hdf]
              rfl
            have husedgoal : ∀ n, memB n (st.used ++ [n0])
                = ((rl' ++ [l]).any (fun x => lineMatches x n) && dictContains dict n) := by
              intro n
              rw [memB_append, memB_singleton]
              by_cases hn : n0 = n
              · subst hn
                simp [List.any_append, hM, hcont, hu]
              · simp [List.any_append, hM, hn, ihu n]
            have hbeq : ∀ b, b ∈ dict → b.name = n0 → b = a0 := by
              intro b hbmem hbn
              have hfb := dictFind_unique dict hnd b hbmem
              rw [hbn, hdf] at hfb
              exact (Option.some.inj hfb).symm
            cases hc : memB a0.category IGNORED_CATEGORIES with
            | true =>
              rw [hupd, aggregateLine_ignored st l n0 a0 hm hu hf hc]
              constructor
              · intro n
                show memB n (st.used ++ [n0]) = _
                exact husedgoal n
              · show st.copy = dict.filter (injCond (st.used ++ [n0]))
                rw [ihc]
                apply List.filter_congr
                intro b hbmem
                by_cases hbn : b.name = n0
                · rw [hbeq b hbmem hbn]
                  unfold injCond
                  rw [hname, memB_append, memB_singleton, hu, hc]
                  simp
                · exact (injCond_append_ne st.used n0 b hbn).symm
            | false =>
              rw [hupd, aggregateLine_consume st l n0 a0 hm hu hf hc]
              constructor
              · intro n
                show memB n (st.used ++ [n0]) = _
                exact husedgoal n
              · show dictDelete st.copy a0.name = dict.filter (injCond (st.used ++ [n0]))
                rw [ihc]
                unfold dictDelete
                rw [List.filter_filter]
                simp only [hname]
                apply List.filter_congr
                intro b hbmem
                by_cases hbn : b.name = n0
                · rw [hbeq b hbmem hbn]
                  unfold injCond
                  rw [hname, memB_append, memB_singleton, hu, hc]
                  simp
                · have e2 : decide (b.name ≠ n0) = true := decide_eq_true hbn
                  rw [e2, Bool.true_and, injCond_append_ne st.used n0 b hbn]

theorem dictContains_filter (d : List DoneAction) (p : DoneAction → Bool) (n : String)
    (hnd : NodupNames d) :
    dictContains (d.filter p) n
      = (match dictFind d n with
         | some a => p a
         | none => false) := by
  unfold dictContains
  rw [dictFind_filter d p n hnd]
  cases dictFind d n with
  | none => rfl
  | some a =>
    by_cases hp : p a = true
    · simp [hp]
    · rw [Bool.not_eq_true] at hp
      simp [hp]

/-- The single uncategorized action named "A" used in concrete C1 inputs. -/
def c1Action : DoneAction :=
  { identation_width := 0, name := "A", category := "", weekday_nums := "", notes := [] }

/-- C1 counterexample: with an empty report no line matches action "A", so by the
claim its Overview line should carry " (Tracked)" — but the code leaves the tag
empty; and conversely, when a report line does match, the code attaches the tag.
The claim's direction of the biconditional is inverted. -/
theorem C1_counterexample :
    consumedPred [] [c1Action] "A" = false ∧
    overviewTrackedTag (injectionPass [] [c1Action]).copy c1Action = "" ∧
    ("" : String) ≠ TRACKED_TAG ∧
    consumedPred ["- **A**"] [c1Action] "A" = true ∧
    overviewTrackedTag (injectionPass ["- **A**"] [c1Action]).copy c1Action = TRACKED_TAG := by
  refine ⟨rfl, rfl, ?_, rfl, rfl⟩
  decide

/-- C1 amended: for a mapping with pairwise-distinct names (always true of the
Python dict), an action's Overview line carries the literal tag " (Tracked)" if
and only if the action WAS consumed during injection — some report line's
bold-name extraction matched its name and its category is not in the ignored
set, so it was deleted from the working copy of the mapping.  (The claim as
frozen asserts the opposite direction; see C1_counterexample.) -/
theorem C1_amended (rl : List String) (dict : List DoneAction) (a : DoneAction)
    (hnd : NodupNames dict) (ha : a ∈ dict) :
    overviewTrackedTag (injectionPass rl dict).copy a
      = (if consumedPred rl dict a.name = true then TRACKED_TAG else "") := by
  obtain ⟨hu, hc⟩ := injection_inv dict hnd rl
  have hfind : dictFind dict a.name = some a := dictFind_unique dict hnd a ha
  have hcont : dictContains dict a.name = true := by
    unfold dictContains
    rw [hfind]
    rfl
  have htag : dictContains (injectionPass rl dict).copy a.name
      = injCond (injectionPass rl dict).used a := by
    rw [hc, dictContains_filter dict _ a.name hnd, hfind]
  unfold overviewTrackedTag
  rw [htag]
  unfold consumedPred catNotIgnored
  rw [hfind]
  unfold injCond
  rw [hu a.name, hcont, Bool.and_true]
  cases hxy : ((rl.any fun l => lineMatches l a.name) && !(memB a.category IGNORED_CATEGORIES)) with
  | true => simp [hxy]
  | false => simp [hxy]

/-- Witness for C1_amended on a one-line report matching the single action. -/
theorem C1_amended_witness :
    overviewTrackedTag (injectionPass ["- **A**"] [c1Action]).copy c1Action
      = (if consumedPred ["- **A**"] [c1Action] c1Action.name = true
         then TRACKED_TAG else "") :=
  C1_amended ["- **A**"] [c1Action] c1Action
    (by unfold NodupNames; decide) (List.mem_singleton.mpr rfl)

/-! ### Weekday merging across days (C8) -/

theorem listIndex_lt_length (x : String) :
    ∀ (l : List String) (i : Nat), listIndex x l = some i → i < l.length := by
  intro l
  induction l with
  | nil => intro i h; exact Option.noConfusion h
  | cons y ys ih =>
    intro i h
    unfold listIndex at h
    by_cases hy : y = x
    · rw [if_pos hy] at h
      injection h with h
      subst h
      simp
    · rw [if_neg hy] at h
      cases hidx : listIndex x ys with
      | none => rw [hidx] at h; exact Option.noConfusion h
      | some j =>
        rw [hidx] at h
        simp at h
        subst h
        have := ih j hidx
        simp
        omega

theorem doneStripped_day_ne_empty (h w : String) (hd : dayDoneMatch h = some w) :
    doneStripped h ≠ "" := by
  have hstart : listStarts ['#', '#', '#', '#', ' '] h.data = true := by
    by_cases hs : listStarts ['#', '#', '#', '#', ' '] h.data = true
    · exact hs
    · rw [Bool.not_eq_true] at hs
      simp [dayDoneMatch, hs] at hd
  cases hdata : h.data with
  | nil => rw [hdata] at hstart; exact Bool.noConfusion hstart
  | cons c cs =>
    rw [hdata] at hstart
    simp [listStarts] at hstart
    have hchar : c = '#' := hstart.1.symm
    intro hcontra
    have hdd : doneStripped h = pyStrip (lstripDashSpace h) := rfl
    have hls : lstripDashSpace h = ⟨'#' :: cs⟩ := by
      unfold lstripDashSpace
      rw [hdata, hchar]
      rfl
    rw [hdd, hls] at hcontra
    have hstrip : pyStrip ⟨'#' :: cs⟩ = ⟨dropTrailing pyIsSpace ('#' :: cs)⟩ := by
      unfold pyStrip
      rfl
    rw [hstrip] at hcontra
    have hdatae : dropTrailing pyIsSpace ('#' :: cs) = [] := congrArg String.data hcontra
    unfold dropTrailing at hdatae
    have hrev : ('#' :: cs).reverse.dropWhile pyIsSpace = [] := by
      have := congrArg List.reverse hdatae
      simpa using this
    rw [List.dropWhile_eq_nil_iff] at hrev
    have := hrev '#' (by simp)
    exact Bool.noConfusion this

theorem doneLineStep_day (st : ParseState) (h w : String) (i : Nat)
    (hs : doneStripped h ≠ "")
    (hd : dayDoneMatch h = some w) (hi : listIndex w WEEKDAYS = some i) :
    doneLineStep st h
      = .ok { st with weekday_num := toString i, last_category := "", active := none } := by
  simp [doneLineStep, hs, hd, hi]


/-- A parser weekday_num value: "" before any day header, else the rendering of
a valid weekday index. -/
def validWd (s : String) : Prop :=
  s = "" ∨ ∃ k, k < 7 ∧ s = toString k

/-- The active action aliases its dict entry in Python; in the embedding the two
copies agree. -/
def SyncInv (st : ParseState) : Prop :=
  ∀ ak, st.active = some ak → dictFind st.dict ak.name = some ak

/-- weekday_nums of an entry is the comma-space join of a non-empty duplicate-free
list of weekday_num values. -/
def wdShape (a : DoneAction) (ds : List String) : Prop :=
  a.weekday_nums = joinCommaSpace ds ∧ ds ≠ [] ∧ ds.Nodup ∧ ∀ s ∈ ds, validWd s

/-- Every stored action has a well-shaped weekday_nums. -/
def GlobalShape (st : ParseState) : Prop :=
  ∀ a ∈ st.dict, ∃ ds, wdShape a ds

/-- The parser-state invariant carried through the whole loop. -/
def StInv (st : ParseState) : Prop :=
  SyncInv st ∧ validWd st.weekday_num ∧ GlobalShape st ∧ NodupNames st.dict

/-- The line is a top-level occurrence of the action named n: exactly the
conditions under which the parser creates or merges the entry n. -/
def isActionOccCond (l n : String) : Prop :=
  doneStripped l = n ∧ dayDoneMatch l = none ∧
    memB (doneStripped l) CATEGORIES = false ∧ indentWidth l = 0

/-- Spec-side recomputation of the weekday state in force after a sequence of
lines: day headers with known weekdays update it, everything else leaves it
(on inputs the parser accepts this coincides with the parser's weekday_num). -/
def weekdayStateAfter (wd : String) : List String → String
  | [] => wd
  | l :: ls =>
    match dayDoneMatch l with
    | some w =>
      match listIndex w WEEKDAYS with
      | some idx => weekdayStateAfter (toString idx) ls
      | none => weekdayStateAfter wd ls
    | none => weekdayStateAfter wd ls

theorem weekdayStateAfter_cons (wd l : String) (ls : List String) :
    weekdayStateAfter wd (l :: ls)
      = (match dayDoneMatch l with
         | some w =>
           match listIndex w WEEKDAYS with
           | some idx => weekdayStateAfter (toString idx) ls
           | none => weekdayStateAfter wd ls
         | none => weekdayStateAfter wd ls) := rfl

theorem weekdayStateAfter_cons_day (wd l : String) (ls : List String) (w : String)
    (idx : Nat) (hd : dayDoneMatch l = some w) (hidx : listIndex w WEEKDAYS = some idx) :
    weekdayStateAfter wd (l :: ls) = weekdayStateAfter (toString idx) ls := by
  rw [weekdayStateAfter_cons, hd]
  show (match listIndex w WEEKDAYS with
        | some idx => weekdayStateAfter (toString idx) ls
        | none => weekdayStateAfter wd ls) = weekdayStateAfter (toString idx) ls
  rw [hidx]

theorem weekdayStateAfter_cons_day_unknown (wd l : String) (ls : List String) (w : String)
    (hd : dayDoneMatch l = some w) (hidx : listIndex w WEEKDAYS = none) :
    weekdayStateAfter wd (l :: ls) = weekdayStateAfter wd ls := by
  rw [weekdayStateAfter_cons, hd]
  show (match listIndex w WEEKDAYS with
        | some idx => weekdayStateAfter (toString idx) ls
        | none => weekdayStateAfter wd ls) = weekdayStateAfter wd ls
  rw [hidx]

theorem weekdayStateAfter_cons_other (wd l : String) (ls : List String)
    (hd : dayDoneMatch l = none) :
    weekdayStateAfter wd (l :: ls) = weekdayStateAfter wd ls := by
  rw [weekdayStateAfter_cons, hd]

theorem weekdayStateAfter_append (xs ys : List String) :
    ∀ wd, weekdayStateAfter wd (xs ++ ys)
      = weekdayStateAfter (weekdayStateAfter wd xs) ys := by
  induction xs with
  | nil => intro wd; rfl
  | cons l ls ih =>
    intro wd
    rw [List.cons_append]
    cases hd : dayDoneMatch l with
    | some w =>
      cases hidx : listIndex w WEEKDAYS with
      | some idx =>
        rw [weekdayStateAfter_cons_day wd l (ls ++ ys) w idx hd hidx,
          weekdayStateAfter_cons_day wd l ls w idx hd hidx]
        exact ih (toString idx)
      | none =>
        rw [weekdayStateAfter_cons_day_unknown wd l (ls ++ ys) w hd hidx,
          weekdayStateAfter_cons_day_unknown wd l ls w hd hidx]
        exact ih wd
    | none =>
      rw [weekdayStateAfter_cons_other wd l (ls ++ ys) hd,
        weekdayStateAfter_cons_other wd l ls hd]
      exact ih wd

/-! ### Dictionary lemmas for the weekday-merge development -/

theorem dictFind_cons (x : DoneAction) (l : List DoneAction) (n : String) :
    dictFind (x :: l) n = if x.name = n then some x else dictFind l n := rfl

theorem dictFind_append_of_none (d e : List DoneAction) (n : String)
    (h : dictFind d n = none) : dictFind (d ++ e) n = dictFind e n := by
  induction d with
  | nil => rfl
  | cons x rest ih =>
    rw [List.cons_append, dictFind_cons]
    rw [dictFind_cons] at h
    by_cases hx : x.name = n
    · rw [if_pos hx] at h; exact Option.noConfusion h
    · rw [if_neg hx] at h
      rw [if_neg hx]
      exact ih h

theorem dictFind_append_of_some (d e : List DoneAction) (n : String) (a : DoneAction)
    (h : dictFind d n = some a) : dictFind (d ++ e) n = some a := by
  induction d with
  | nil => exact Option.noConfusion h
  | cons x rest ih =>
    rw [List.cons_append, dictFind_cons]
    rw [dictFind_cons] at h
    by_cases hx : x.name = n
    · rw [if_pos hx] at h
      rw [if_pos hx]
      exact h
    · rw [if_neg hx] at h
      rw [if_neg hx]
      exact ih h

theorem dictFind_update_self (d : List DoneAction) (n : String) (a a' : DoneAction)
    (h : dictFind d n = some a) (hn : a'.name = n) :
    dictFind (dictUpdate d n a') n = some a' := by
  induction d with
  | nil => exact Option.noConfusion h
  | cons x rest ih =>
    unfold dictFind at h
    unfold dictUpdate
    rw [List.map_cons]
    by_cases hx : x.name = n
    · rw [if_pos hx]
      unfold dictFind
      rw [if_pos hn]
    · rw [if_neg hx]
      rw [if_neg hx] at h
      unfold dictFind
      rw [if_neg hx]
      exact ih h

theorem dictFind_update_other (d : List DoneAction) (m n : String) (a' : DoneAction)
    (hmn : m ≠ n) (hn : a'.name = m) :
    dictFind (dictUpdate d m a') n = dictFind d n := by
  induction d with
  | nil => rfl
  | cons x rest ih =>
    unfold dictUpdate
    rw [List.map_cons]
    by_cases hx : x.name = m
    · rw [if_pos hx]
      unfold dictFind
      rw [if_neg (by rw [hn]; exact hmn), if_neg (by rw [hx]; exact hmn)]
      exact ih
    · rw [if_neg hx]
      unfold dictFind
      by_cases hxn : x.name = n
      · rw [if_pos hxn, if_pos hxn]
      · rw [if_neg hxn, if_neg hxn]
        exact ih

theorem dictFind_update_none (d : List DoneAction) (m n : String) (a' : DoneAction)
    (hn : a'.name = m) (h : dictFind d n = none) :
    dictFind (dictUpdate d m a') n = none := by
  induction d with
  | nil => rfl
  | cons x rest ih =>
    unfold dictFind at h
    by_cases hxn : x.name = n
    · rw [if_pos hxn] at h; exact Option.noConfusion h
    · rw [if_neg hxn] at h
      unfold dictUpdate
      rw [List.map_cons]
      by_cases hx : x.name = m
      · rw [if_pos hx]
        unfold dictFind
        by_cases han : a'.name = n
        · rw [hn] at han
          rw [← hx] at han
          exact absurd han hxn
        · rw [if_neg han]
          exact ih h
      · rw [if_neg hx]
        unfold dictFind
        rw [if_neg hxn]
        exact ih h

theorem find_none_imp_no_name (d : List DoneAction) (n : String)
    (h : dictFind d n = none) : ∀ a ∈ d, a.name ≠ n := by
  induction d with
  | nil => intro a ha; simp at ha
  | cons x rest ih =>
    intro a ha
    unfold dictFind at h
    by_cases hx : x.name = n
    · rw [if_pos hx] at h; exact Option.noConfusion h
    · rw [if_neg hx] at h
      rcases List.mem_cons.mp ha with ha | ha
      · subst ha; exact hx
      · exact ih h a ha

theorem dictUpdate_map_name (d : List DoneAction) (m : String) (a' : DoneAction)
    (hn : a'.name = m) :
    (dictUpdate d m a').map DoneAction.name = d.map DoneAction.name := by
  induction d with
  | nil => rfl
  | cons x rest ih =>
    unfold dictUpdate
    rw [List.map_cons, List.map_cons, List.map_cons]
    by_cases hx : x.name = m
    · rw [if_pos hx]
      unfold dictUpdate at ih
      rw [ih, hn, hx]
    · rw [if_neg hx]
      unfold dictUpdate at ih
      rw [ih]

theorem nodup_append_singleton {α : Type} (l : List α) (x : α)
    (hl : l.Nodup) (hx : x ∉ l) : (l ++ [x]).Nodup := by
  induction l with
  | nil => simp
  | cons y ys ih =>
    rw [List.nodup_cons] at hl
    rw [List.cons_append, List.nodup_cons]
    constructor
    · rw [List.mem_append, List.mem_singleton]
      intro hcase
      rcases hcase with hcase | hcase
      · exact hl.1 hcase
      · exact hx (hcase ▸ List.mem_cons_self y ys)
    · exact ih hl.2 (fun hmem => hx (List.mem_cons_of_mem y hmem))

theorem head_append_of_ne_nil {α : Type} (l t : List α) (h : l ≠ []) :
    (l ++ t).head? = l.head? := by
  cases l with
  | nil => exact absurd rfl h
  | cons x xs => rfl

/-! ### joinCommaSpace and substring lemmas -/

theorem joinCommaSpace_append_singleton (ds : List String) (s : String) (h : ds ≠ []) :
    joinCommaSpace (ds ++ [s]) = joinCommaSpace ds ++ ", " ++ s := by
  induction ds with
  | nil => exact absurd rfl h
  | cons x rest ih =>
    cases rest with
    | nil => rfl
    | cons y t =>
      rw [List.cons_append]
      have step : joinCommaSpace (x :: ((y :: t) ++ [s]))
          = x ++ ", " ++ joinCommaSpace ((y :: t) ++ [s]) := rfl
      rw [step, ih (by simp)]
      have step2 : joinCommaSpace (x :: y :: t) = x ++ ", " ++ joinCommaSpace (y :: t) := rfl
      rw [step2]
      simp [str_append_assoc]

theorem listHasSub_nil_left (hay : List Char) : listHasSub [] hay = true := by
  cases hay with
  | nil => rfl
  | cons c rest => rfl

theorem strIn_empty_left (y : String) : strIn "" y = true := by
  show listHasSub ("" : String).data y.data = true
  rw [str_empty_data]
  exact listHasSub_nil_left y.data

theorem hasSub_single_iff (c : Char) (hay : List Char) :
    listHasSub [c] hay = true ↔ c ∈ hay := by
  induction hay with
  | nil => simp [listHasSub]
  | cons x rest ih => simp [listHasSub, listStarts, ih, List.mem_cons]

theorem toString_lt7_digit (k : Nat) (hk : k < 7) :
    ∃ c, (toString k).data = [c] ∧ '0' ≤ c ∧ c ≤ '9' := by
  interval_cases k
  · exact ⟨'0', by decide, by decide, by decide⟩
  · exact ⟨'1', by decide, by decide, by decide⟩
  · exact ⟨'2', by decide, by decide, by decide⟩
  · exact ⟨'3', by decide, by decide, by decide⟩
  · exact ⟨'4', by decide, by decide, by decide⟩
  · exact ⟨'5', by decide, by decide, by decide⟩
  · exact ⟨'6', by decide, by decide, by decide⟩

theorem mem_join_data (c : Char) (hc0 : c ≠ ',') (hc1 : c ≠ ' ') :
    ∀ ds : List String, c ∈ (joinCommaSpace ds).data ↔ ∃ x ∈ ds, c ∈ x.data := by
  intro ds
  induction ds with
  | nil => simp [joinCommaSpace, str_empty_data]
  | cons x rest ih =>
    cases rest with
    | nil => simp [joinCommaSpace]
    | cons y t =>
      have step : joinCommaSpace (x :: y :: t) = x ++ ", " ++ joinCommaSpace (y :: t) := rfl
      rw [step, str_data_append, str_data_append]
      have hsep : (", " : String).data = [',', ' '] := rfl
      rw [hsep]
      constructor
      · intro hc
        rcases List.mem_append.mp hc with hc | hc
        · rcases List.mem_append.mp hc with hc | hc
          · exact ⟨x, List.mem_cons_self x _, hc⟩
          · rcases List.mem_cons.mp hc with hc | hc
            · exact absurd hc hc0
            · rw [List.mem_singleton] at hc
              exact absurd hc hc1
        · obtain ⟨z, hz, hcz⟩ := ih.mp hc
          exact ⟨z, List.mem_cons_of_mem x hz, hcz⟩
      · rintro ⟨z, hz, hcz⟩
        rcases List.mem_cons.mp hz with hz | hz
        · subst hz
          exact List.mem_append.mpr (Or.inl (List.mem_append.mpr (Or.inl hcz)))
        · exact List.mem_append.mpr (Or.inr (ih.mpr ⟨z, hz, hcz⟩))

theorem strIn_join_iff (k : Nat) (hk : k < 7) (ds : List String)
    (hds : ∀ x ∈ ds, validWd x) :
    (strIn (toString k) (joinCommaSpace ds) = true ↔ toString k ∈ ds) := by
  obtain ⟨c, hdata, hc0, hc9⟩ := toString_lt7_digit k hk
  have hcne0 : c ≠ ',' := by
    intro h
    subst h
    exact absurd hc0 (by decide)
  have hcne1 : c ≠ ' ' := by
    intro h
    subst h
    exact absurd hc0 (by decide)
  have hform : strIn (toString k) (joinCommaSpace ds)
      = listHasSub [c] (joinCommaSpace ds).data := by
    unfold strIn
    rw [hdata]
  rw [hform, hasSub_single_iff, mem_join_data c hcne0 hcne1 ds]
  constructor
  · intro ⟨x, hx, hcx⟩
    rcases hds x hx with hx0 | ⟨k', hk', hx'⟩
    · subst hx0
      rw [str_empty_data] at hcx
      simp at hcx
    · obtain ⟨c', hdata', _, _⟩ := toString_lt7_digit k' hk'
      subst hx'
      rw [hdata'] at hcx
      rw [List.mem_singleton] at hcx
      have heq : toString k' = toString k := by
        apply String.ext
        rw [hdata, hdata', hcx]
      exact heq ▸ hx
  · intro hmem
    refine ⟨toString k, hmem, ?_⟩
    rw [hdata]
    exact List.mem_singleton.mpr rfl

/-! ### Parser-step branch equations and characterization -/

theorem doneLineStep_blank (st : ParseState) (l : String) (hb : doneStripped l = "") :
    doneLineStep st l = .ok st := by
  simp [doneLineStep, hb]

theorem doneLineStep_cat (st : ParseState) (l : String)
    (hs : doneStripped l ≠ "") (hd : dayDoneMatch l = none)
    (hc : memB (doneStripped l) CATEGORIES = true) :
    doneLineStep st l = .ok { st with active := none, last_category := doneStripped l } := by
  simp [doneLineStep, hs, hd, hc]

theorem doneLineStep_create (st : ParseState) (l : String)
    (hs : doneStripped l ≠ "") (hd : dayDoneMatch l = none)
    (hc : memB (doneStripped l) CATEGORIES = false) (hw : indentWidth l = 0)
    (hfind : dictFind st.dict (doneStripped l) = none) :
    doneLineStep st l = .ok
      { dict := st.dict ++ [{ identation_width := 0, name := doneStripped l, category := "",
                              weekday_nums := st.weekday_num, notes := [] }],
        active := some { identation_width := 0, name := doneStripped l, category := "",
                         weekday_nums := st.weekday_num, notes := [] },
        last_category := "", weekday_num := st.weekday_num } := by
  simp [doneLineStep, hs, hd, hc, hw, hfind]

theorem doneLineStep_merge_skip (st : ParseState) (l : String) (a0 : DoneAction)
    (hs : doneStripped l ≠ "") (hd : dayDoneMatch l = none)
    (hc : memB (doneStripped l) CATEGORIES = false) (hw : indentWidth l = 0)
    (hfind : dictFind st.dict (doneStripped l) = some a0)
    (hguard : strIn st.weekday_num a0.weekday_nums = true) :
    doneLineStep st l = .ok
      { dict := dictUpdate st.dict (doneStripped l) a0, active := some a0,
        last_category := "", weekday_num := st.weekday_num } := by
  simp [doneLineStep, hs, hd, hc, hw, hfind, hguard]

theorem doneLineStep_merge_add (st : ParseState) (l : String) (a0 : DoneAction)
    (hs : doneStripped l ≠ "") (hd : dayDoneMatch l = none)
    (hc : memB (doneStripped l) CATEGORIES = false) (hw : indentWidth l = 0)
    (hfind : dictFind st.dict (doneStripped l) = some a0)
    (hguard : strIn st.weekday_num a0.weekday_nums = false) :
    doneLineStep st l = .ok
      { dict := dictUpdate st.dict (doneStripped l)
          { a0 with weekday_nums := a0.weekday_nums ++ ", " ++ st.weekday_num },
        active := some { a0 with weekday_nums := a0.weekday_nums ++ ", " ++ st.weekday_num },
        last_category := "", weekday_num := st.weekday_num } := by
  simp [doneLineStep, hs, hd, hc, hw, hfind, hguard]

theorem doneLineStep_note_some (st : ParseState) (l : String) (ak : DoneAction)
    (hs : doneStripped l ≠ "") (hd : dayDoneMatch l = none)
    (hc : memB (doneStripped l) CATEGORIES = false) (hw : ¬ indentWidth l = 0)
    (hact : st.active = some ak) :
    doneLineStep st l = .ok
      { st with
        dict := dictUpdate st.dict ak.name { ak with notes := ak.notes ++ [strDrop l ak.identation_width] },
        active := some { ak with notes := ak.notes ++ [strDrop l ak.identation_width] } } := by
  simp [doneLineStep, hs, hd, hc, hw, hact]

theorem doneLineStep_note_none (st : ParseState) (l : String)
    (hs : doneStripped l ≠ "") (hd : dayDoneMatch l = none)
    (hc : memB (doneStripped l) CATEGORIES = false) (hw : ¬ indentWidth l = 0)
    (hact : st.active = none) :
    doneLineStep st l = .ok st := by
  simp [doneLineStep, hs, hd, hc, hw, hact]

/-- Full characterization of one accepted parser step: the state is unchanged, a
day header was consumed, a category was set, an action was created, an action
was weekday-merged, or a note was appended to the active action. -/
theorem doneLineStep_cases (st : ParseState) (l : String) (st' : ParseState)
    (h : doneLineStep st l = .ok st') :
    (dayDoneMatch l = none ∧ st' = st) ∨
    (∃ w idx, dayDoneMatch l = some w ∧ listIndex w WEEKDAYS = some idx ∧
      st' = { st with weekday_num := toString idx, last_category := "", active := none }) ∨
    (dayDoneMatch l = none ∧
      st' = { st with active := none, last_category := doneStripped l }) ∨
    (doneStripped l ≠ "" ∧ dayDoneMatch l = none ∧
      memB (doneStripped l) CATEGORIES = false ∧ indentWidth l = 0 ∧
      dictFind st.dict (doneStripped l) = none ∧
      st' = { dict := st.dict ++ [{ identation_width := 0, name := doneStripped l, category := "",
                                    weekday_nums := st.weekday_num, notes := [] }],
              active := some { identation_width := 0, name := doneStripped l, category := "",
                               weekday_nums := st.weekday_num, notes := [] },
              last_category := "", weekday_num := st.weekday_num }) ∨
    (∃ a0, doneStripped l ≠ "" ∧ dayDoneMatch l = none ∧
      memB (doneStripped l) CATEGORIES = false ∧ indentWidth l = 0 ∧
      dictFind st.dict (doneStripped l) = some a0 ∧
      st' = { dict := dictUpdate st.dict (doneStripped l)
                        (if strIn st.weekday_num a0.weekday_nums then a0
                         else { a0 with weekday_nums := a0.weekday_nums ++ ", " ++ st.weekday_num }),
              active := some (if strIn st.weekday_num a0.weekday_nums then a0
                              else { a0 with weekday_nums := a0.weekday_nums ++ ", " ++ st.weekday_num }),
              last_category := "", weekday_num := st.weekday_num }) ∨
    (∃ ak, dayDoneMatch l = none ∧ st.active = some ak ∧
      st' = { st with
              dict := dictUpdate st.dict ak.name { ak with notes := ak.notes ++ [strDrop l ak.identation_width] },
              active := some { ak with notes := ak.notes ++ [strDrop l ak.identation_width] } }) := by
  by_cases hb : doneStripped l = ""
  · left
    have hd : dayDoneMatch l = none := by
      cases hdm : dayDoneMatch l with
      | none => rfl
      | some w => exact absurd hb (doneStripped_day_ne_empty l w hdm)
    rw [doneLineStep_blank st l hb] at h
    injection h with h
    exact ⟨hd, h.symm⟩
  · cases hd : dayDoneMatch l with
    | some w =>
      cases hidx : listIndex w WEEKDAYS with
      | some idx =>
        right; left
        rw [doneLineStep_day st l w idx hb hd hidx] at h
        injection h with h
        exact ⟨w, idx, rfl, hidx, h.symm⟩
      | none =>
        exfalso
        have herr : doneLineStep st l = .error "ValueError: substring not found" := by
          simp [doneLineStep, hb, hd, hidx]
        rw [herr] at h
        exact Except.noConfusion h
    | none =>
      by_cases hc : memB (doneStripped l) CATEGORIES = true
      · right; right; left
        rw [doneLineStep_cat st l hb hd hc] at h
        injection h with h
        exact ⟨rfl, h.symm⟩
      · rw [Bool.not_eq_true] at hc
        by_cases hw : indentWidth l = 0
        · cases hfind : dictFind st.dict (doneStripped l) with
          | none =>
            right; right; right; left
            rw [doneLineStep_create st l hb hd hc hw hfind] at h
            injection h with h
            exact ⟨hb, rfl, hc, hw, rfl, h.symm⟩
          | some a0 =>
            right; right; right; right; left
            cases hguard : strIn st.weekday_num a0.weekday_nums with
            | true =>
              rw [doneLineStep_merge_skip st l a0 hb hd hc hw hfind hguard] at h
              injection h with h
              refine ⟨a0, hb, rfl, hc, hw, rfl, ?_⟩
              rw [if_pos hguard]
              exact h.symm
            | false =>
              rw [doneLineStep_merge_add st l a0 hb hd hc hw hfind hguard] at h
              injection h with h
              refine ⟨a0, hb, rfl, hc, hw, rfl, ?_⟩
              rw [if_neg (by simp [hguard])]
              exact h.symm
        · cases hact : st.active with
          | some ak =>
            right; right; right; right; right
            rw [doneLineStep_note_some st l ak hb hd hc hw hact] at h
            injection h with h
            exact ⟨ak, rfl, rfl, h.symm⟩
          | none =>
            left
            rw [doneLineStep_note_none st l hb hd hc hw hact] at h
            injection h with h
            exact ⟨rfl, h.symm⟩

/-! ### Invariant preservation and entry tracking through the parser loop -/

theorem WEEKDAYS_length : WEEKDAYS.length = 7 := rfl

theorem dictFind_append_self (d : List DoneAction) (a : DoneAction)
    (h : dictFind d a.name = none) : dictFind (d ++ [a]) a.name = some a := by
  rw [dictFind_append_of_none d [a] a.name h, dictFind_cons, if_pos rfl]

theorem dictFind_append_singleton_ne (d : List DoneAction) (a : DoneAction) (n : String)
    (hfind : dictFind d n = none) (hne : a.name ≠ n) :
    dictFind (d ++ [a]) n = none := by
  rw [dictFind_append_of_none d [a] n hfind, dictFind_cons, if_neg hne]
  rfl

theorem nodupNames_append_singleton (d : List DoneAction) (a : DoneAction)
    (hnd : NodupNames d) (hnew : ∀ b ∈ d, b.name ≠ a.name) :
    NodupNames (d ++ [a]) := by
  unfold NodupNames at hnd ⊢
  rw [List.map_append, List.map_singleton]
  apply nodup_append_singleton _ _ hnd
  intro hmem
  rw [List.mem_map] at hmem
  obtain ⟨b, hb, hbn⟩ := hmem
  exact hnew b hb hbn

theorem merge_entry_name (a0 : DoneAction) (wd : String) :
    (if strIn wd a0.weekday_nums then a0
     else { a0 with weekday_nums := a0.weekday_nums ++ ", " ++ wd }).name = a0.name := by
  by_cases hg : strIn wd a0.weekday_nums = true
  · rw [if_pos hg]
  · rw [Bool.not_eq_true] at hg
    rw [if_neg (by simp [hg])]

/-- Weekday-merging an entry extends its weekday list by at most one new element
and keeps it well-shaped. -/
theorem merge_shape (a0 : DoneAction) (wd : String) (ds0 : List String)
    (hshape : wdShape a0 ds0) (hwd : validWd wd) :
    ∃ tail, wdShape
      (if strIn wd a0.weekday_nums then a0
       else { a0 with weekday_nums := a0.weekday_nums ++ ", " ++ wd })
      (ds0 ++ tail) := by
  obtain ⟨hj, hne, hnd, hv⟩ := hshape
  by_cases hg : strIn wd a0.weekday_nums = true
  · refine ⟨[], ?_⟩
    rw [List.append_nil, if_pos hg]
    exact ⟨hj, hne, hnd, hv⟩
  · rw [Bool.not_eq_true] at hg
    refine ⟨[wd], ?_⟩
    rw [if_neg (by simp [hg])]
    have hwdne : wd ∉ ds0 := by
      rcases hwd with hwd0 | ⟨k, hk, hwdk⟩
      · exfalso
        rw [hwd0, strIn_empty_left] at hg
        exact Bool.noConfusion hg
      · subst hwdk
        intro hmem
        have h2 := (strIn_join_iff k hk ds0 hv).mpr hmem
        rw [← hj] at h2
        rw [h2] at hg
        exact Bool.noConfusion hg
    refine ⟨?_, by simp, nodup_append_singleton ds0 wd hnd hwdne, ?_⟩
    · show a0.weekday_nums ++ ", " ++ wd = joinCommaSpace (ds0 ++ [wd])
      rw [joinCommaSpace_append_singleton ds0 wd hne, hj]
    · intro s hs
      rcases List.mem_append.mp hs with hs | hs
      · exact hv s hs
      · rw [List.mem_singleton] at hs
        subst hs
        exact hwd

theorem doneLineStep_StInv (st : ParseState) (l : String) (st' : ParseState)
    (hinv : StInv st) (h : doneLineStep st l = .ok st') : StInv st' := by
  obtain ⟨hsync, hwd, hglob, hnd⟩ := hinv
  rcases doneLineStep_cases st l st' h with
    ⟨hd, hst⟩ | ⟨w, idx, hd, hidx, hst⟩ | ⟨hd, hst⟩ |
    ⟨hb, hd, hc, hw0, hfind0, hst⟩ | ⟨a0, hb, hd, hc, hw0, hfind0, hst⟩ |
    ⟨ak, hd, hact, hst⟩
  · subst hst
    exact ⟨hsync, hwd, hglob, hnd⟩
  · subst hst
    refine ⟨?_, ?_, hglob, hnd⟩
    · intro ak hak
      exact Option.noConfusion hak
    · have hlt := listIndex_lt_length w WEEKDAYS idx hidx
      rw [WEEKDAYS_length] at hlt
      exact Or.inr ⟨idx, hlt, rfl⟩
  · subst hst
    refine ⟨?_, hwd, hglob, hnd⟩
    intro ak hak
    exact Option.noConfusion hak
  · subst hst
    refine ⟨?_, hwd, ?_, ?_⟩
    · intro ak hak
      injection hak with hak
      subst hak
      exact dictFind_append_self st.dict _ hfind0
    · intro b hb2
      have hb3 : b ∈ st.dict ++
          [{ identation_width := 0, name := doneStripped l, category := "",
             weekday_nums := st.weekday_num, notes := [] }] := hb2
      rcases List.mem_append.mp hb3 with hb4 | hb4
      · exact hglob b hb4
      · rw [List.mem_singleton] at hb4
        subst hb4
        refine ⟨[st.weekday_num], rfl, by simp, by simp, ?_⟩
        intro s hs
        rw [List.mem_singleton] at hs
        subst hs
        exact hwd
    · show NodupNames (st.dict ++
        [{ identation_width := 0, name := doneStripped l, category := "",
           weekday_nums := st.weekday_num, notes := [] }])
      exact nodupNames_append_singleton st.dict _ hnd
        (find_none_imp_no_name st.dict (doneStripped l) hfind0)
  · subst hst
    have hname : (if strIn st.weekday_num a0.weekday_nums then a0
        else { a0 with weekday_nums := a0.weekday_nums ++ ", " ++ st.weekday_num }).name
        = doneStripped l :=
      (merge_entry_name a0 st.weekday_num).trans (dictFind_mem _ _ _ hfind0).2
    obtain ⟨ds0, hds0⟩ := hglob a0 (dictFind_mem _ _ _ hfind0).1
    obtain ⟨tail, htail⟩ := merge_shape a0 st.weekday_num ds0 hds0 hwd
    refine ⟨?_, hwd, ?_, ?_⟩
    · intro ak hak
      injection hak with hak
      subst hak
      rw [hname]
      exact dictFind_update_self st.dict (doneStripped l) a0 _ hfind0 hname
    · intro b hb2
      have hb3 : b ∈ dictUpdate st.dict (doneStripped l)
          (if strIn st.weekday_num a0.weekday_nums then a0
           else { a0 with weekday_nums := a0.weekday_nums ++ ", " ++ st.weekday_num }) := hb2
      rcases mem_dictUpdate _ _ _ b hb3 with hb4 | hb4
      · exact hglob b hb4
      · subst hb4
        exact ⟨ds0 ++ tail, htail⟩
    · show NodupNames (dictUpdate st.dict (doneStripped l)
        (if strIn st.weekday_num a0.weekday_nums then a0
         else { a0 with weekday_nums := a0.weekday_nums ++ ", " ++ st.weekday_num }))
      unfold NodupNames
      rw [dictUpdate_map_name st.dict (doneStripped l) _ hname]
      exact hnd
  · subst hst
    have hfind0 : dictFind st.dict ak.name = some ak := hsync ak hact
    obtain ⟨ds0, hds0⟩ := hglob ak (dictFind_mem _ _ _ hfind0).1
    refine ⟨?_, hwd, ?_, ?_⟩
    · intro b hb
      injection hb with hb
      subst hb
      exact dictFind_update_self st.dict ak.name ak _ hfind0 rfl
    · intro b hb2
      have hb3 : b ∈ dictUpdate st.dict ak.name
          { ak with notes := ak.notes ++ [strDrop l ak.identation_width] } := hb2
      rcases mem_dictUpdate _ _ _ b hb3 with hb4 | hb4
      · exact hglob b hb4
      · subst hb4
        exact ⟨ds0, hds0⟩
    · show NodupNames (dictUpdate st.dict ak.name
        { ak with notes := ak.notes ++ [strDrop l ak.identation_width] })
      unfold NodupNames
      rw [dictUpdate_map_name st.dict ak.name
        { ak with notes := ak.notes ++ [strDrop l ak.identation_width] } rfl]
      exact hnd

theorem foldDoneLines_cons_ok (st : ParseState) (l : String) (ls : List String)
    (st2 : ParseState) (h : foldDoneLines st (l :: ls) = .ok st2) :
    ∃ st1, doneLineStep st l = .ok st1 ∧ foldDoneLines st1 ls = .ok st2 := by
  unfold foldDoneLines at h
  cases hstep : doneLineStep st l with
  | ok st1 =>
    rw [hstep] at h
    exact ⟨st1, rfl, h⟩
  | error e =>
    rw [hstep] at h
    exact Except.noConfusion h

theorem foldDoneLines_append_ok (xs ys : List String) :
    ∀ (st st2 : ParseState), foldDoneLines st (xs ++ ys) = .ok st2 →
      ∃ st1, foldDoneLines st xs = .ok st1 ∧ foldDoneLines st1 ys = .ok st2 := by
  induction xs with
  | nil =>
    intro st st2 h
    exact ⟨st, rfl, h⟩
  | cons l ls ih =>
    intro st st2 h
    rw [List.cons_append] at h
    obtain ⟨sta, hstep, hrest⟩ := foldDoneLines_cons_ok st l (ls ++ ys) st2 h
    obtain ⟨st1, h1, h2⟩ := ih sta st2 hrest
    refine ⟨st1, ?_, h2⟩
    unfold foldDoneLines
    rw [hstep]
    exact h1

theorem foldDoneLines_StInv (ls : List String) :
    ∀ (st st' : ParseState), StInv st → foldDoneLines st ls = .ok st' → StInv st' := by
  induction ls with
  | nil =>
    intro st st' hinv h
    unfold foldDoneLines at h
    injection h with h
    subst h
    exact hinv
  | cons l rest ih =>
    intro st st' hinv h
    obtain ⟨st1, hstep, hrest⟩ := foldDoneLines_cons_ok st l rest st' h
    exact ih st1 st' (doneLineStep_StInv st l st1 hinv hstep) hrest

/-- On accepted inputs the parser's weekday state is the spec-side recomputation. -/
theorem foldDoneLines_weekday (ls : List String) :
    ∀ (st st' : ParseState), foldDoneLines st ls = .ok st' →
      st'.weekday_num = weekdayStateAfter st.weekday_num ls := by
  induction ls with
  | nil =>
    intro st st' h
    unfold foldDoneLines at h
    injection h with h
    subst h
    rfl
  | cons l rest ih =>
    intro st st' h
    obtain ⟨st1, hstep, hrest⟩ := foldDoneLines_cons_ok st l rest st' h
    have hih := ih st1 st' hrest
    rcases doneLineStep_cases st l st1 hstep with
      ⟨hd, hst⟩ | ⟨w, idx, hd, hidx, hst⟩ | ⟨hd, hst⟩ |
      ⟨hb, hd, hc, hw0, hfind0, hst⟩ | ⟨a0, hb, hd, hc, hw0, hfind0, hst⟩ |
      ⟨ak, hd, hact, hst⟩
    · rw [hst] at hih
      rw [weekdayStateAfter_cons_other st.weekday_num l rest hd]
      exact hih
    · subst hst
      rw [weekdayStateAfter_cons_day st.weekday_num l rest w idx hd hidx]
      exact hih
    · subst hst
      rw [weekdayStateAfter_cons_other st.weekday_num l rest hd]
      exact hih
    · subst hst
      rw [weekdayStateAfter_cons_other st.weekday_num l rest hd]
      exact hih
    · subst hst
      rw [weekdayStateAfter_cons_other st.weekday_num l rest hd]
      exact hih
    · subst hst
      rw [weekdayStateAfter_cons_other st.weekday_num l rest hd]
      exact hih

/-- One parser step keeps a stored entry findable and only ever appends to its
weekday list. -/
theorem step_entry_extend (st : ParseState) (l : String) (st' : ParseState)
    (n : String) (a : DoneAction) (ds : List String)
    (hinv : StInv st) (h : doneLineStep st l = .ok st')
    (hfind : dictFind st.dict n = some a) (hds : wdShape a ds) :
    ∃ a' tail, dictFind st'.dict n = some a' ∧ wdShape a' (ds ++ tail) := by
  obtain ⟨hsync, hwd, hglob, hnd⟩ := hinv
  rcases doneLineStep_cases st l st' h with
    ⟨hd, hst⟩ | ⟨w, idx, hd, hidx, hst⟩ | ⟨hd, hst⟩ |
    ⟨hb, hd, hc, hw0, hfind0, hst⟩ | ⟨a0, hb, hd, hc, hw0, hfind0, hst⟩ |
    ⟨ak, hd, hact, hst⟩
  · subst hst
    exact ⟨a, [], hfind, by rw [List.append_nil]; exact hds⟩
  · subst hst
    exact ⟨a, [], hfind, by rw [List.append_nil]; exact hds⟩
  · subst hst
    exact ⟨a, [], hfind, by rw [List.append_nil]; exact hds⟩
  · subst hst
    refine ⟨a, [], ?_, by rw [List.append_nil]; exact hds⟩
    exact dictFind_append_of_some st.dict _ n a hfind
  · subst hst
    by_cases hmn : doneStripped l = n
    · subst hmn
      have ha : a0 = a := Option.some.inj (hfind0.symm.trans hfind)
      subst ha
      obtain ⟨tail, htail⟩ := merge_shape a0 st.weekday_num ds hds hwd
      exact ⟨_, tail, dictFind_update_self st.dict (doneStripped l) a0 _ hfind0
        ((merge_entry_name a0 st.weekday_num).trans (dictFind_mem _ _ _ hfind0).2), htail⟩
    · refine ⟨a, [], ?_, by rw [List.append_nil]; exact hds⟩
      show dictFind (dictUpdate st.dict (doneStripped l)
        (if strIn st.weekday_num a0.weekday_nums then a0
         else { a0 with weekday_nums := a0.weekday_nums ++ ", " ++ st.weekday_num })) n = some a
      rw [dictFind_update_other st.dict (doneStripped l) n _ hmn
        ((merge_entry_name a0 st.weekday_num).trans (dictFind_mem _ _ _ hfind0).2)]
      exact hfind
  · subst hst
    by_cases hmn : ak.name = n
    · have hfind0 : dictFind st.dict ak.name = some ak := hsync ak hact
      rw [hmn] at hfind0
      have ha : ak = a := Option.some.inj (hfind0.symm.trans hfind)
      subst ha
      refine ⟨{ ak with notes := ak.notes ++ [strDrop l ak.identation_width] }, [],
        ?_, by rw [List.append_nil]; exact hds⟩
      rw [← hmn]
      exact dictFind_update_self st.dict ak.name ak
        { ak with notes := ak.notes ++ [strDrop l ak.identation_width] } (hsync ak hact) rfl
    · refine ⟨a, [], ?_, by rw [List.append_nil]; exact hds⟩
      show dictFind (dictUpdate st.dict ak.name
        { ak with notes := ak.notes ++ [strDrop l ak.identation_width] }) n = some a
      rw [dictFind_update_other st.dict ak.name n
        { ak with notes := ak.notes ++ [strDrop l ak.identation_width] } hmn rfl]
      exact hfind

theorem fold_entry_extend (ls : List String) :
    ∀ (st st' : ParseState) (n : String) (a : DoneAction) (ds : List String),
      StInv st → foldDoneLines st ls = .ok st' →
      dictFind st.dict n = some a → wdShape a ds →
      ∃ a' tail, dictFind st'.dict n = some a' ∧ wdShape a' (ds ++ tail) := by
  induction ls with
  | nil =>
    intro st st' n a ds hinv h hfind hds
    unfold foldDoneLines at h
    injection h with h
    subst h
    exact ⟨a, [], hfind, by rw [List.append_nil]; exact hds⟩
  | cons l rest ih =>
    intro st st' n a ds hinv h hfind hds
    obtain ⟨st1, hstep, hrest⟩ := foldDoneLines_cons_ok st l rest st' h
    obtain ⟨a1, t1, hfind1, hds1⟩ := step_entry_extend st l st1 n a ds hinv hstep hfind hds
    obtain ⟨a2, t2, hfind2, hds2⟩ := ih st1 st' n a1 (ds ++ t1)
      (doneLineStep_StInv st l st1 hinv hstep) hrest hfind1 hds1
    refine ⟨a2, t1 ++ t2, hfind2, ?_⟩
    rw [← List.append_assoc]
    exact hds2

/-- A name not yet stored stays unstored across a step whose line is not a
top-level occurrence of it. -/
theorem step_absent (st : ParseState) (l : String) (st' : ParseState) (n : String)
    (h : doneLineStep st l = .ok st') (hocc : ¬ isActionOccCond l n)
    (hfind : dictFind st.dict n = none) : dictFind st'.dict n = none := by
  rcases doneLineStep_cases st l st' h with
    ⟨hd, hst⟩ | ⟨w, idx, hd, hidx, hst⟩ | ⟨hd, hst⟩ |
    ⟨hb, hd, hc, hw0, hfind0, hst⟩ | ⟨a0, hb, hd, hc, hw0, hfind0, hst⟩ |
    ⟨ak, hd, hact, hst⟩
  · subst hst; exact hfind
  · subst hst; exact hfind
  · subst hst; exact hfind
  · subst hst
    have hne : doneStripped l ≠ n := by
      intro heq
      exact hocc ⟨heq, hd, hc, hw0⟩
    exact dictFind_append_singleton_ne st.dict _ n hfind hne
  · subst hst
    show dictFind (dictUpdate st.dict (doneStripped l)
      (if strIn st.weekday_num a0.weekday_nums then a0
       else { a0 with weekday_nums := a0.weekday_nums ++ ", " ++ st.weekday_num })) n = none
    exact dictFind_update_none st.dict (doneStripped l) n _
      ((merge_entry_name a0 st.weekday_num).trans (dictFind_mem _ _ _ hfind0).2) hfind
  · subst hst
    show dictFind (dictUpdate st.dict ak.name
      { ak with notes := ak.notes ++ [strDrop l ak.identation_width] }) n = none
    exact dictFind_update_none st.dict ak.name n _ rfl hfind

theorem fold_absent (ls : List String) :
    ∀ (st st' : ParseState) (n : String), foldDoneLines st ls = .ok st' →
      (∀ l ∈ ls, ¬ isActionOccCond l n) → dictFind st.dict n = none →
      dictFind st'.dict n = none := by
  induction ls with
  | nil =>
    intro st st' n h hocc hfind
    unfold foldDoneLines at h
    injection h with h
    subst h
    exact hfind
  | cons l rest ih =>
    intro st st' n h hocc hfind
    obtain ⟨st1, hstep, hrest⟩ := foldDoneLines_cons_ok st l rest st' h
    exact ih st1 st' n hrest (fun x hx => hocc x (List.mem_cons_of_mem l hx))
      (step_absent st l st1 n hstep (hocc l (List.mem_cons_self l rest)) hfind)

/-- Processing a top-level action line on a fresh name creates its entry with the
current weekday as its whole weekday list. -/
theorem Lstep_create (st st1 : ParseState) (L : String) (i : Nat)
    (hLs : doneStripped L ≠ "") (hLd : dayDoneMatch L = none)
    (hLc : memB (doneStripped L) CATEGORIES = false) (hLw : indentWidth L = 0)
    (hi : i < 7) (hwd : st.weekday_num = toString i)
    (hfind : dictFind st.dict (doneStripped L) = none)
    (h : doneLineStep st L = .ok st1) :
    ∃ a, dictFind st1.dict (doneStripped L) = some a ∧ wdShape a [toString i] := by
  rw [doneLineStep_create st L hLs hLd hLc hLw hfind] at h
  injection h with h
  subst h
  refine ⟨{ identation_width := 0, name := doneStripped L, category := "",
            weekday_nums := st.weekday_num, notes := [] }, ?_, ?_, by simp, by simp, ?_⟩
  · exact dictFind_append_self st.dict _ hfind
  · show st.weekday_num = joinCommaSpace [toString i]
    rw [hwd]
    rfl
  · intro s hs
    rw [List.mem_singleton] at hs
    subst hs
    exact Or.inr ⟨i, hi, rfl⟩

/-- Processing a top-level action line on a stored name merges the current
weekday into its weekday list, appending it exactly when it is new. -/
theorem Lstep_merge (st st1 : ParseState) (L : String) (i : Nat) (a0 : DoneAction)
    (ds0 : List String)
    (hLs : doneStripped L ≠ "") (hLd : dayDoneMatch L = none)
    (hLc : memB (doneStripped L) CATEGORIES = false) (hLw : indentWidth L = 0)
    (hi : i < 7) (hwd : st.weekday_num = toString i)
    (hfind : dictFind st.dict (doneStripped L) = some a0)
    (hds0 : wdShape a0 ds0)
    (h : doneLineStep st L = .ok st1) :
    ∃ a tail, dictFind st1.dict (doneStripped L) = some a ∧
      wdShape a (ds0 ++ tail) ∧ toString i ∈ ds0 ++ tail := by
  cases hg : strIn st.weekday_num a0.weekday_nums with
  | true =>
    rw [doneLineStep_merge_skip st L a0 hLs hLd hLc hLw hfind hg] at h
    injection h with h
    subst h
    refine ⟨a0, [], ?_, ?_, ?_⟩
    · exact dictFind_update_self st.dict (doneStripped L) a0 a0 hfind
        (dictFind_mem _ _ _ hfind).2
    · rw [List.append_nil]
      exact hds0
    · rw [List.append_nil]
      rw [hwd, hds0.1] at hg
      exact (strIn_join_iff i hi ds0 hds0.2.2.2).mp hg
  | false =>
    rw [doneLineStep_merge_add st L a0 hLs hLd hLc hLw hfind hg] at h
    injection h with h
    subst h
    obtain ⟨hj, hne0, hnd0, hv0⟩ := hds0
    have hmem : toString i ∉ ds0 := by
      intro hmem
      have h2 := (strIn_join_iff i hi ds0 hv0).mpr hmem
      rw [← hj] at h2
      rw [hwd] at hg
      rw [h2] at hg
      exact Bool.noConfusion hg
    refine ⟨{ a0 with weekday_nums := a0.weekday_nums ++ ", " ++ st.weekday_num },
      [toString i], ?_, ?_, ?_⟩
    · exact dictFind_update_self st.dict (doneStripped L) a0
        { a0 with weekday_nums := a0.weekday_nums ++ ", " ++ st.weekday_num } hfind
        (dictFind_mem _ _ _ hfind).2
    · refine ⟨?_, by simp, nodup_append_singleton ds0 (toString i) hnd0 hmem, ?_⟩
      · show a0.weekday_nums ++ ", " ++ st.weekday_num = joinCommaSpace (ds0 ++ [toString i])
        rw [joinCommaSpace_append_singleton ds0 (toString i) hne0, hj, hwd]
      · intro s hs
        rcases List.mem_append.mp hs with hs | hs
        · exact hv0 s hs
        · rw [List.mem_singleton] at hs
          subst hs
          exact Or.inr ⟨i, hi, rfl⟩
    · exact List.mem_append.mpr (Or.inr (List.mem_singleton.mpr rfl))

/-- C8: for every week line sequence in which the same top-level (indentation-zero,
non-category, non-day-header) action line occurs at two positions where the
weekday state names two different valid weekdays — with arbitrary lines before,
between and after the two occurrences — the parser's mapping holds a single entry
under that name (the key list is duplicate-free) whose weekday_nums is the
comma-space join of a duplicate-free list of weekday strings containing both
weekday indices; and if the action does not occur at top level before the first
designated occurrence, that list starts with the first weekday, giving first-seen
order of the two indices. -/
theorem C8_two_days_weekday_merge (u v w : List String) (L : String)
    (i1 i2 : Nat) (d : List DoneAction)
    (hok : week_done_lines_to_dict (u ++ (L :: v) ++ (L :: w)) = .ok d)
    (hLs : doneStripped L ≠ "") (hLd : dayDoneMatch L = none)
    (hLc : memB (doneStripped L) CATEGORIES = false) (hLw : indentWidth L = 0)
    (hw1 : weekdayStateAfter "" u = toString i1)
    (hw2 : weekdayStateAfter "" (u ++ (L :: v)) = toString i2)
    (hi1 : i1 < 7) (hi2 : i2 < 7) (hne : i1 ≠ i2) :
    NodupNames d ∧ ∃ a ds, dictFind d (doneStripped L) = some a ∧
      a.weekday_nums = joinCommaSpace ds ∧ ds ≠ [] ∧ ds.Nodup ∧
      toString i1 ∈ ds ∧ toString i2 ∈ ds ∧
      ((∀ l ∈ u, ¬ isActionOccCond l (doneStripped L)) →
        ds.head? = some (toString i1)) := by
  unfold week_done_lines_to_dict at hok
  cases hfold : foldDoneLines
      { dict := [], active := none, last_category := "", weekday_num := "" }
      (u ++ (L :: v) ++ (L :: w)) with
  | error e =>
    rw [hfold] at hok
    exact Except.noConfusion hok
  | ok stF =>
    rw [hfold] at hok
    injection hok with hok
    subst hok
    have hinv0 : StInv { dict := [], active := none, last_category := "", weekday_num := "" } := by
      refine ⟨?_, Or.inl rfl, ?_, ?_⟩
      · intro ak hak
        exact Option.noConfusion hak
      · intro a ha
        simp at ha
      · show (List.map DoneAction.name []).Nodup
        simp
    obtain ⟨st2, h12, h2F⟩ := foldDoneLines_append_ok (u ++ (L :: v)) (L :: w) _ stF hfold
    obtain ⟨stu, h0u, huv⟩ := foldDoneLines_append_ok u (L :: v) _ st2 h12
    obtain ⟨st1, hstepL1, hv⟩ := foldDoneLines_cons_ok stu L v st2 huv
    obtain ⟨st3, hstepL2, hwfold⟩ := foldDoneLines_cons_ok st2 L w stF h2F
    have hinvu : StInv stu := foldDoneLines_StInv u _ stu hinv0 h0u
    have hinv1 : StInv st1 := doneLineStep_StInv stu L st1 hinvu hstepL1
    have hinv2 : StInv st2 := foldDoneLines_StInv v st1 st2 hinv1 hv
    have hinv3 : StInv st3 := doneLineStep_StInv st2 L st3 hinv2 hstepL2
    have hinvF : StInv stF := foldDoneLines_StInv w st3 stF hinv3 hwfold
    have hwdu : stu.weekday_num = toString i1 := by
      have hcorr := foldDoneLines_weekday u _ stu h0u
      rw [hcorr]
      exact hw1
    have hwd2 : st2.weekday_num = toString i2 := by
      have hcorr := foldDoneLines_weekday (u ++ (L :: v)) _ st2 h12
      rw [hcorr]
      exact hw2
    have hphase1 : ∃ a1 ds1, dictFind st1.dict (doneStripped L) = some a1 ∧
        wdShape a1 ds1 ∧ toString i1 ∈ ds1 ∧
        ((∀ l ∈ u, ¬ isActionOccCond l (doneStripped L)) →
          ds1.head? = some (toString i1)) := by
      cases hfindu : dictFind stu.dict (doneStripped L) with
      | none =>
        obtain ⟨a1, hfind1, hshape1⟩ :=
          Lstep_create stu st1 L i1 hLs hLd hLc hLw hi1 hwdu hfindu hstepL1
        exact ⟨a1, [toString i1], hfind1, hshape1,
          List.mem_singleton.mpr rfl, fun _ => rfl⟩
      | some a0 =>
        obtain ⟨ds0, hds0⟩ := hinvu.2.2.1 a0 (dictFind_mem _ _ _ hfindu).1
        obtain ⟨a1, tail, hfind1, hshape1, hmem1⟩ :=
          Lstep_merge stu st1 L i1 a0 ds0 hLs hLd hLc hLw hi1 hwdu hfindu hds0 hstepL1
        refine ⟨a1, ds0 ++ tail, hfind1, hshape1, hmem1, ?_⟩
        intro habs
        exfalso
        have h0 : dictFind ({ dict := [], active := none, last_category := "", weekday_num := "" } : ParseState).dict (doneStripped L) = none := rfl
        have habsent := fold_absent u _ stu (doneStripped L) h0u habs h0
        rw [habsent] at hfindu
        exact Option.noConfusion hfindu
    obtain ⟨a1, ds1, hfind1, hshape1, hmem1, hhead1⟩ := hphase1
    obtain ⟨a2, t2, hfind2, hshape2⟩ :=
      fold_entry_extend v st1 st2 (doneStripped L) a1 ds1 hinv1 hv hfind1 hshape1
    obtain ⟨a3, t3, hfind3, hshape3, hmem3⟩ :=
      Lstep_merge st2 st3 L i2 a2 (ds1 ++ t2) hLs hLd hLc hLw hi2 hwd2 hfind2 hshape2 hstepL2
    obtain ⟨aF, t4, hfindF, hshapeF⟩ :=
      fold_entry_extend w st3 stF (doneStripped L) a3 ((ds1 ++ t2) ++ t3)
        hinv3 hwfold hfind3 hshape3
    refine ⟨hinvF.2.2.2, aF, ((ds1 ++ t2) ++ t3) ++ t4, hfindF,
      hshapeF.1, hshapeF.2.1, hshapeF.2.2.1, ?_, ?_, ?_⟩
    · exact List.mem_append.mpr (Or.inl (List.mem_append.mpr (Or.inl
        (List.mem_append.mpr (Or.inl hmem1)))))
    · exact List.mem_append.mpr (Or.inl hmem3)
    · intro habs
      have hh1 := hhead1 habs
      have hne1 : ds1 ≠ [] := hshape1.2.1
      have hne12 : ds1 ++ t2 ≠ [] := by
        intro hx
        rcases List.append_eq_nil.mp hx with ⟨hx1, _⟩
        exact hne1 hx1
      have hne123 : (ds1 ++ t2) ++ t3 ≠ [] := by
        intro hx
        rcases List.append_eq_nil.mp hx with ⟨hx1, _⟩
        exact hne12 hx1
      rw [head_append_of_ne_nil ((ds1 ++ t2) ++ t3) t4 hne123,
        head_append_of_ne_nil (ds1 ++ t2) t3 hne12,
        head_append_of_ne_nil ds1 t2 hne1]
      exact hh1

/-- The parser's mapping on the witness week: a pre-header stray line and the
action "Fix bug" seen under Monday (0) and Thursday (3) with interleaved notes. -/
def c8WitnessDict : List DoneAction :=
  [{ identation_width := 0, name := "junk text", category := "",
     weekday_nums := "", notes := [] },
   { identation_width := 0, name := "Fix bug", category := "",
     weekday_nums := "0, 3",
     notes := ["    - note", "    - note2"] }]

theorem C8_two_days_weekday_merge_witness :
    NodupNames c8WitnessDict ∧ ∃ a ds,
      dictFind c8WitnessDict (doneStripped "- Fix bug") = some a ∧
      a.weekday_nums = joinCommaSpace ds ∧ ds ≠ [] ∧ ds.Nodup ∧
      toString 0 ∈ ds ∧ toString 3 ∈ ds ∧
      ((∀ l ∈ ["junk text", "#### 01/01 Monday"],
          ¬ isActionOccCond l (doneStripped "- Fix bug")) →
        ds.head? = some (toString 0)) :=
  C8_two_days_weekday_merge ["junk text", "#### 01/01 Monday"]
    ["    - note", "#### 01/02 Thursday"] ["    - note2"] "- Fix bug" 0 3
    c8WitnessDict (by rfl) (by decide) (by rfl) (by rfl) (by rfl)
    (by rfl) (by rfl) (by decide) (by decide) (by decide)
